import Mathlib

/-!
Verification development for the rrr schema/binary-record library.

The Rust sources are embedded shallowly:
* bytes are `Nat` values (0–255 on the wire), byte buffers are `List Nat`;
* Rust `String`s that only ever hold ASCII (field names, schema text,
  rendered output) are also represented as their byte sequences `List Nat`;
* fallible operations return explicit result inductives; a Rust panic
  (out-of-bounds slice, `unreachable!`, `unwrap` on `Err`) is modelled by a
  distinguished `aborted` constructor;
* recursion that is not structural in Rust (parser descent, serializer
  loops) is driven by an explicit fuel argument, with a distinguished
  `fuelOut` constructor, so that every definition computes by kernel
  reduction.
-/

namespace RRR

/-- ASCII byte sequence of a Lean string literal; used to write the byte-level
strings of the embedding readably. -/
def ascii (s : String) : List Nat := s.data.map Char.toNat

/-! ## Schema parse errors (src/src/ast.rs) -/

/-- `Location(pub usize, pub usize)` from ast.rs: a half-open byte range. -/
structure Location where
  fst : Nat
  snd : Nat
  deriving DecidableEq

/-- `SchemaParseErrorKind` from ast.rs. -/
inductive SchemaParseErrorKind where
  | unexpectedEof
  | unexpectedToken
  | unknownBuiltinType
  | unknownToken
  deriving DecidableEq

/-- `SchemaParseError` from ast.rs. -/
structure SchemaParseError where
  kind : SchemaParseErrorKind
  location : Location
  deriving DecidableEq

/-! ## AST (src/src/ast.rs) -/

/-- `Len` from ast.rs.  The snapshot of ast.rs only has `Fixed` and
`Variable`; the `Unlimited` case is required by visitor.rs (which matches on
`Len::Unlimited`) and is modelled from the spec: "`Unlimited` (decode until
the buffer is exhausted)", written `+` in schema text. -/
inductive Len where
  | fixed (n : Nat)
  | variab (name : List Nat)
  | unlimited
  deriving DecidableEq

mutual
/-- `Ast { kind, name }` from ast.rs (field order swapped for readability). -/
inductive Ast where
  | mk (name : List Nat) (kind : AstKind)

/-- `AstKind` from ast.rs. -/
inductive AstKind where
  | int8
  | int16
  | int32
  | uint8
  | uint16
  | uint32
  | float32
  | float64
  | str
  | nstr (size : Nat)
  | struct (children : List Ast)
  | array (len : Len) (element : Ast)
end

def Ast.name : Ast → List Nat
  | .mk n _ => n

def Ast.kind : Ast → AstKind
  | .mk _ k => k

/-- `Size` from ast.rs. -/
inductive Size where
  | known (n : Nat)
  | unknown
  | undefined
  deriving DecidableEq

/-- `Ast::size` from ast.rs (`std::mem::size_of` of each scalar type). -/
def Ast.size (a : Ast) : Size :=
  match a.kind with
  | .int8 => .known 1
  | .int16 => .known 2
  | .int32 => .known 4
  | .uint8 => .known 1
  | .uint16 => .known 2
  | .uint32 => .known 4
  | .float32 => .known 4
  | .float64 => .known 8
  | .str => .unknown
  | .nstr size => .known size
  | .struct _ => .undefined
  | .array _ _ => .undefined

/-! ## ParamStack (src/src/param.rs)

The Rust `HashMap<String, Vec<(ParamLevel, ParamValue)>>` is modelled as an
association list; `insert` replaces the value of an existing key in place and
appends new keys at the end.  `HashMap`'s `PartialEq` is order-insensitive, so
equalities proved on this model are sound for the source.  A `Vec` stack is a
`List` whose top is its last element, mirroring `push`/`pop`/`last`. -/

/-- `HashMap::insert` on the association-list model. -/
def mapInsert (k : List Nat) (v : List (Nat × Nat)) :
    List (List Nat × List (Nat × Nat)) → List (List Nat × List (Nat × Nat))
  | [] => [(k, v)]
  | (k', v') :: rest =>
      if k' = k then (k, v) :: rest else (k', v') :: mapInsert k v rest

/-- `ParamStack` from param.rs; `tbl` is the Rust field `stacks` (renamed:
`stacks` is a reserved word of a library attribute here). -/
structure ParamStack where
  level : Nat
  tbl : List (List Nat × List (Nat × Nat))
  deriving DecidableEq

namespace ParamStack

/-- `ParamStack::new`. -/
def new : ParamStack := ⟨0, []⟩

/-- `ParamStack::contains`. -/
def contains (p : ParamStack) (name : List Nat) : Bool :=
  p.tbl.any (fun e => e.1 = name)

/-- `ParamStack::add_entry` ("ignores the original entry even if it existed"). -/
def addEntry (p : ParamStack) (name : List Nat) : ParamStack :=
  { p with tbl := mapInsert name [] p.tbl }

/-- `ParamStack::create_scope`. -/
def createScope (p : ParamStack) : ParamStack :=
  { p with level := p.level + 1 }

/-- One stack's update inside `ParamStack::clear_scope`: pop the top entry if
its recorded level equals the level being closed. -/
def popTopAtLevel (level : Nat) (stack : List (Nat × Nat)) : List (Nat × Nat) :=
  match stack.getLast? with
  | some (l, _) => if l = level then stack.dropLast else stack
  | none => stack

/-- `ParamStack::clear_scope`. -/
def clearScope (p : ParamStack) : ParamStack :=
  { level := p.level - 1
    tbl := p.tbl.map (fun e => (e.1, popTopAtLevel p.level e.2)) }

/-- `ParamStack::get_value` (the `last` of the named stack, any level). -/
def getValue (p : ParamStack) (name : List Nat) : Option Nat :=
  match (p.tbl.lookup name).bind List.getLast? with
  | some (_, v) => some v
  | none => none

/-- `ParamStack::push_value`: a no-op returning `none` if `name` is
unregistered, else pushes `(current_level, value)`. -/
def pushValue (p : ParamStack) (name : List Nat) (value : Nat) : ParamStack :=
  { p with
    tbl := p.tbl.map (fun e =>
      if e.1 = name then (e.1, e.2 ++ [(p.level, value)]) else e) }

end ParamStack

/-- `Schema { ast, params }` from ast.rs. -/
structure Schema where
  ast : Ast
  params : ParamStack

/-! ## Schema lexer (src/src/ast.rs, `SchemaLexer`) -/

/-- `TokenKind` from ast.rs.  The snapshot has no unlimited-array token; the
`plus` token is modelled from the spec's grammar line
`type := ... | '+' '[' field_list ']' (* unlimited *)` and the `+` emitted by
the oneline formatter in visitor.rs. -/
inductive TokenKind where
  | ident (s : List Nat)
  | number (n : Nat)
  | colon
  | comma
  | lbracket
  | rbracket
  | langle
  | rangle
  | lbrace
  | rbrace
  | plus
  deriving DecidableEq

/-- `Token { kind, pos }` from ast.rs; `pos` is the byte position just after
the token. -/
structure Token where
  kind : TokenKind
  pos : Nat
  deriving DecidableEq

/-- Byte classes of the lexer. -/
def isIdentByte (b : Nat) : Bool :=
  (48 ≤ b && b ≤ 57) || (65 ≤ b && b ≤ 90) || (97 ≤ b && b ≤ 122) || b = 95

def isLetterByte (b : Nat) : Bool :=
  (65 ≤ b && b ≤ 90) || (97 ≤ b && b ≤ 122)

def isDigitByte (b : Nat) : Bool := 48 ≤ b && b ≤ 57

/-- Decimal value of a digit-byte string, as computed by
`String::parse::<usize>` inside `SchemaLexer::lex_number`. -/
def decVal (digits : List Nat) : Nat :=
  digits.foldl (fun acc d => acc * 10 + (d - 48)) 0

/-- `SchemaLexer::next` as a pure function of the input and the lexer
position: `none` is iterator exhaustion; an `ok` token's `pos` field is the
position after the token (the lexer's new `self.pos`); on an error the
position does not advance. -/
def lexNext (input : List Nat) (pos : Nat) : Option (Except SchemaParseError Token) :=
  match (input.drop pos).head? with
  | none => none
  | some b =>
      if isLetterByte b then
        -- lex_ident: scan [0-9A-Za-z_]+ (from_utf8_lossy is the identity on
        -- these ASCII bytes)
        let s := (input.drop pos).takeWhile isIdentByte
        some (.ok ⟨.ident s, pos + s.length⟩)
      else if 49 ≤ b && b ≤ 57 then
        -- lex_number: scan [0-9]+ and parse it as a decimal usize
        let s := (input.drop pos).takeWhile isDigitByte
        some (.ok ⟨.number (decVal s), pos + s.length⟩)
      else if b = 58 then some (.ok ⟨.colon, pos + 1⟩)
      else if b = 44 then some (.ok ⟨.comma, pos + 1⟩)
      else if b = 91 then some (.ok ⟨.lbracket, pos + 1⟩)
      else if b = 93 then some (.ok ⟨.rbracket, pos + 1⟩)
      else if b = 60 then some (.ok ⟨.langle, pos + 1⟩)
      else if b = 62 then some (.ok ⟨.rangle, pos + 1⟩)
      else if b = 123 then some (.ok ⟨.lbrace, pos + 1⟩)
      else if b = 125 then some (.ok ⟨.rbrace, pos + 1⟩)
      -- Modelled from the spec: the unlimited-array marker '+' (missing from
      -- the snapshot of ast.rs; required by visitor.rs and spec section 4.1).
      else if b = 43 then some (.ok ⟨.plus, pos + 1⟩)
      else some (.error ⟨.unknownToken, ⟨pos, pos + 1⟩⟩)

/-! ## Schema parser (src/src/ast.rs, `SchemaParser`)

The Rust parser holds a `Peekable<SchemaLexer>` plus a `location` and a
`ParamStack`.  Since `SchemaLexer::next` is a pure function of the input and
position, `Peekable` is modelled by re-reading `lexNext` at the stored
position.  The mutually recursive `parse_field_list` / `parse_type` /
`parse_array` are a single fuel-indexed step function `pStep` (`parse_array`
and `parse_nstr_type` are inlined in the `ptype` mode, exactly as they only
differ by which token has already been consumed). -/

/-- Parser state: lexer position, `self.location`, `self.params`. -/
structure PState where
  pos : Nat
  loc : Location
  params : ParamStack

/-- `SchemaParser::update_location`: `location = (old.1, token.pos)`. -/
def updLoc (loc : Location) (t : Token) : Location := ⟨loc.snd, t.pos⟩

/-- Outcome of a parser phase.  `aborted` models the `unreachable!()` /
`unwrap` panics of the source, `fuelOut` fuel exhaustion of the embedding. -/
inductive POut where
  | ok (kind : AstKind) (st : PState)
  | perr (e : SchemaParseError)
  | aborted
  | fuelOut

/-- `SchemaParser::next_token`: `self.lexer.next().unwrap_or(Err(eof))?` and
`update_location`. -/
def nextToken (input : List Nat) (st : PState) : Except SchemaParseError (Token × PState) :=
  match lexNext input st.pos with
  | none => .error ⟨.unexpectedEof, ⟨st.loc.snd, 0⟩⟩
  | some (.error e) => .error e
  | some (.ok t) => .ok (t, { st with pos := t.pos, loc := updLoc st.loc t })

/-- `SchemaParser::consume_next_token`: `Some(Ok)` advances, `None` is an
unexpected EOF, and `Some(Err)` is `unreachable!()` (an abort). -/
inductive CRes where
  | ok (st : PState)
  | cerr (e : SchemaParseError)
  | caborted

def consumeNextToken (input : List Nat) (st : PState) : CRes :=
  match lexNext input st.pos with
  | none => .cerr ⟨.unexpectedEof, ⟨st.loc.snd, 0⟩⟩
  | some (.error _) => .caborted
  | some (.ok t) => .ok { st with pos := t.pos, loc := updLoc st.loc t }

/-- `SchemaParser::parse_builtin_type`. -/
def parseBuiltinType (st : PState) (ident : List Nat) : Except SchemaParseError AstKind :=
  if ident = ascii "INT8" then .ok .int8
  else if ident = ascii "INT16" then .ok .int16
  else if ident = ascii "INT32" then .ok .int32
  else if ident = ascii "UINT8" then .ok .uint8
  else if ident = ascii "UINT16" then .ok .uint16
  else if ident = ascii "UINT32" then .ok .uint32
  else if ident = ascii "FLOAT32" then .ok .float32
  else if ident = ascii "FLOAT64" then .ok .float64
  else if ident = ascii "STR" then .ok .str
  else .error ⟨.unknownBuiltinType, st.loc⟩

/-- The two recursive phases of the parser. `fieldList members` is the loop of
`parse_field_list` with the members accumulated so far; `ptype` is
`parse_type` (with `parse_nstr_type` and `parse_array` inlined). -/
inductive PMode where
  | fieldList (members : List Ast)
  | ptype

/-- Element wrapping shared by fixed/variable/unlimited arrays: the tail of
`parse_array` applied to the result of parsing the element.

The snapshot of ast.rs always demands `'[' field_list ']'` for the element,
but the final library accepts any type there (its own tests in reader.rs and
visitor.rs parse `field:{10}UINT8`, `fld1:{3}INT8` and `fld3:+INT8`); that
final `parse_array` body is not in the snapshot, so the element is modelled
from the spec's examples (`x:{4}UINT8` in section 8) as a recursive
`parse_type`, which subsumes the snapshot's bracketed-struct case.  The
element node is named `"[]"`. -/
def wrapArray (len : Len) : POut → POut
  | .perr e => .perr e
  | .aborted => .aborted
  | .fuelOut => .fuelOut
  | .ok kind st => .ok (.array len (Ast.mk (ascii "[]") kind)) st

/-- One fuel-indexed step of the recursive-descent parser. -/
def pStep (input : List Nat) : Nat → PMode → PState → POut
  | 0, _, _ => .fuelOut
  | fuel + 1, .fieldList members, st =>
      -- while let Some(token) = self.lexer.next()
      match lexNext input st.pos with
      | none =>
          -- loop exit; empty member list is an unexpected EOF
          if members.isEmpty then .perr ⟨.unexpectedEof, ⟨st.loc.snd, 0⟩⟩
          else .ok (.struct members) st
      | some (.error e) => .perr e
      | some (.ok t) =>
          let st := { st with pos := t.pos, loc := updLoc st.loc t }
          match t.kind with
          | .ident name =>
              -- self.consume_symbol(TokenKind::Colon)?
              match nextToken input st with
              | .error e => .perr e
              | .ok (t2, st) =>
                  if t2.kind ≠ .colon then .perr ⟨.unexpectedToken, st.loc⟩
                  else
                    match pStep input fuel .ptype st with
                    | .perr e => .perr e
                    | .aborted => .aborted
                    | .fuelOut => .fuelOut
                    | .ok kind st =>
                        let members := members ++ [Ast.mk name kind]
                        -- peek: None or RBracket ends the field list
                        match lexNext input st.pos with
                        | none => .ok (.struct members) st
                        | some (.ok ⟨.rbracket, _⟩) => .ok (.struct members) st
                        | _ =>
                            match nextToken input st with
                            | .error e => .perr e
                            | .ok (t3, st) =>
                                if t3.kind ≠ .comma then .perr ⟨.unexpectedToken, st.loc⟩
                                else pStep input fuel (.fieldList members) st
          | _ => .perr ⟨.unexpectedToken, st.loc⟩
  | fuel + 1, .ptype, st =>
      match nextToken input st with
      | .error e => .perr e
      | .ok (t, st) =>
          match t.kind with
          | .ident s =>
              match parseBuiltinType st s with
              | .ok kind => .ok kind st
              | .error e => .perr e
          | .lbracket =>
              match pStep input fuel (.fieldList []) st with
              | .perr e => .perr e
              | .aborted => .aborted
              | .fuelOut => .fuelOut
              | .ok kind st =>
                  -- only RBracket or EOF can appear here
                  match consumeNextToken input st with
                  | .cerr e => .perr e
                  | .caborted => .aborted
                  | .ok st => .ok kind st
          | .langle =>
              -- parse_nstr_type
              match nextToken input st with
              | .error e => .perr e
              | .ok (tn, st) =>
                  match tn.kind with
                  | .number len =>
                      match nextToken input st with
                      | .error e => .perr e
                      | .ok (tr, st) =>
                          if tr.kind ≠ .rangle then .perr ⟨.unexpectedToken, st.loc⟩
                          else
                            match nextToken input st with
                            | .error e => .perr e
                            | .ok (ti, st) =>
                                match ti.kind with
                                | .ident s =>
                                    if s = ascii "NSTR" then .ok (.nstr len) st
                                    else .perr ⟨.unexpectedToken, st.loc⟩
                                | _ => .perr ⟨.unexpectedToken, st.loc⟩
                  | _ => .perr ⟨.unexpectedToken, st.loc⟩
          | .lbrace =>
              -- parse_array
              match nextToken input st with
              | .error e => .perr e
              | .ok (tl, st) =>
                  match tl.kind with
                  | .number n =>
                      match nextToken input st with
                      | .error e => .perr e
                      | .ok (tr, st) =>
                          if tr.kind ≠ .rbrace then .perr ⟨.unexpectedToken, st.loc⟩
                          else wrapArray (.fixed n) (pStep input fuel .ptype st)
                  | .ident s =>
                      let st := { st with params := st.params.addEntry s }
                      match nextToken input st with
                      | .error e => .perr e
                      | .ok (tr, st) =>
                          if tr.kind ≠ .rbrace then .perr ⟨.unexpectedToken, st.loc⟩
                          else wrapArray (.variab s) (pStep input fuel .ptype st)
                  | _ => .perr ⟨.unexpectedToken, st.loc⟩
          | .plus =>
              -- Modelled from the spec: '+' starts an unlimited array.
              wrapArray .unlimited (pStep input fuel .ptype st)
          | _ => .perr ⟨.unexpectedToken, st.loc⟩

/-- Result of `SchemaParser::parse`. -/
inductive POutS where
  | ok (s : Schema)
  | perr (e : SchemaParseError)
  | aborted
  | fuelOut

/-- `SchemaParser::parse` (the `FromStr`/`TryFrom` entry point): parse a field
list, then demand iterator exhaustion; a leftover `Ok` token (necessarily a
`]`) is an unexpected-token error and a leftover `Err` would be an
`unwrap` panic. -/
def parse (input : List Nat) : POutS :=
  match pStep input (input.length + 1) (.fieldList []) ⟨0, ⟨0, 0⟩, .new⟩ with
  | .perr e => .perr e
  | .aborted => .aborted
  | .fuelOut => .fuelOut
  | .ok kind st =>
      match lexNext input st.pos with
      | none => .ok ⟨Ast.mk (ascii "") kind, st.params⟩
      | some (.ok t) => .perr ⟨.unexpectedToken, updLoc st.loc t⟩
      | some (.error _) => .aborted

/-! ## Crate error type

The final `lib.rs` of the library (defining the crate-wide `Error`) is not in
the snapshot; only its uses are (`Error::General` in walker.rs and visitor.rs,
`Error::from_str`/`from_string` with fixed message shapes in reader.rs).
Modelled from the spec's error taxonomy (section 7) and those uses: one
constructor per distinct message shape. -/

inductive Error where
  | general
  | magicNotFound
  | headerEof
  | headerNoEq
  | fieldNotFound (name : List Nat)
  | dataSizeNotInt
  | bodyShortRead (got expected : Nat)
  | decompressFailed (alg : List Nat)
  | unknownCompressType (value : List Nat)
  | schemaErr (e : SchemaParseError)
  deriving DecidableEq

/-! ## Decoded values (src/src/value.rs) -/

/-- `Number` from value.rs.  Integer variants carry their mathematical value;
float variants carry the raw big-endian bit pattern (IEEE semantics are not
given an arithmetic model; no claim exercises float values). -/
inductive Number where
  | int8 (v : Int)
  | int16 (v : Int)
  | int32 (v : Int)
  | uint8 (v : Nat)
  | uint16 (v : Nat)
  | uint32 (v : Nat)
  | float32 (bits : Nat)
  | float64 (bits : Nat)
  deriving DecidableEq

/-- `Value` from value.rs; `structV`/`arrayV` are the empty placeholders of
`Value::new_struct`/`Value::new_array`. -/
inductive Value where
  | number (n : Number)
  | string (s : List Nat)
  | structV
  | arrayV
  deriving DecidableEq

/-- `TryInto<usize> for Number` from value.rs: negative integers and floats
are `Error::General`. -/
def Number.tryIntoUsize : Number → Except Error Nat
  | .int8 v | .int16 v | .int32 v =>
      if v < 0 then .error .general else .ok v.toNat
  | .uint8 v | .uint16 v | .uint32 v => .ok v
  | .float32 _ | .float64 _ => .error .general

/-! ## Binary walker (src/src/walker.rs)

`BufWalker` holds a byte slice and a cursor; each operation takes
`(buf, pos)` and, on success, returns the produced value together with the
new cursor. -/

/-- Walker outcome: `aborted` models a Rust panic (an out-of-bounds slice
index). -/
inductive WRes (α : Type) where
  | ok (a : α) (pos : Nat)
  | err (e : Error)
  | aborted
  deriving DecidableEq

/-- `BufWalker::read_number::<N>` with `size = size_of::<N>()`: the cursor is
advanced first and checked against the buffer length (`Error::General` on a
short buffer) before the slice `buf[start..pos]` is taken, so no
out-of-bounds access happens. -/
def readNumber (buf : List Nat) (pos size : Nat) : WRes (List Nat) :=
  if pos + size > buf.length then .err .general
  else .ok ((buf.drop pos).take size) (pos + size)

/-- `BufWalker::skip_str`: scan forward past a NUL byte; `Error::General` if
none is found before the end. -/
def skipStr (buf : List Nat) (pos : Nat) : WRes Unit :=
  match (buf.drop pos).findIdx? (fun b => b = 0) with
  | some i => .ok () (pos + i + 1)
  | none => .err .general

/-- `BufWalker::read_str`: the bytes before the NUL found by `skip_str`. -/
def readStr (buf : List Nat) (pos : Nat) : WRes (List Nat) :=
  match skipStr buf pos with
  | .ok () pos' => .ok ((buf.drop pos).take (pos' - 1 - pos)) pos'
  | .err e => .err e
  | .aborted => .aborted

/-- `BufWalker::read_nstr`: the cursor is advanced by `size` with no bounds
check and the slice `buf[start..pos]` is taken; when fewer than `size` bytes
remain the slice index is out of range, which is a Rust panic (`aborted`). -/
def readNstr (buf : List Nat) (pos size : Nat) : WRes (List Nat) :=
  if pos + size > buf.length then .aborted
  else .ok ((buf.drop pos).take size) (pos + size)

/-- `BufWalker::skip`: advance by the known size with no bounds check, scan
for `Str`, and do nothing for `Struct`/`Array`. -/
def skip (node : Ast) (buf : List Nat) (pos : Nat) : WRes Unit :=
  match node.size with
  | .known size => .ok () (pos + size)
  | .unknown => skipStr buf pos
  | .undefined => .ok () pos

/-- Big-endian value of a byte sequence. -/
def beNat (bytes : List Nat) : Nat :=
  bytes.foldl (fun acc b => acc * 256 + b) 0

/-- Two's-complement reading of an unsigned `w`-bit value. -/
def twosComplement (w : Nat) (n : Nat) : Int :=
  if n < 2 ^ (w - 1) then (n : Int) else (n : Int) - 2 ^ w

/-- `String::from_utf8_lossy` on the byte level.  Modelled: exact on ASCII
and on well-formed UTF-8 (the identity); ill-formed sequences are replaced
by U+FFFD with a granularity that approximates Rust's maximal-subpart rule.
No claim exercises the ill-formed case. -/
def utf8Lossy (fuel : Nat) (bytes : List Nat) : List Nat :=
  match fuel with
  | 0 => []
  | fuel + 1 =>
      match bytes with
      | [] => []
      | b :: rest =>
          if b < 128 then b :: utf8Lossy fuel rest
          else
            match rest with
            | b2 :: rest2 =>
                if 194 ≤ b && b ≤ 223 && 128 ≤ b2 && b2 ≤ 191 then
                  b :: b2 :: utf8Lossy fuel rest2
                else
                  match rest2 with
                  | b3 :: rest3 =>
                      if 224 ≤ b && b ≤ 239 && 128 ≤ b2 && b2 ≤ 191
                          && 128 ≤ b3 && b3 ≤ 191 then
                        b :: b2 :: b3 :: utf8Lossy fuel rest3
                      else
                        match rest3 with
                        | b4 :: rest4 =>
                            if 240 ≤ b && b ≤ 244 && 128 ≤ b2 && b2 ≤ 191
                                && 128 ≤ b3 && b3 ≤ 191 && 128 ≤ b4 && b4 ≤ 191 then
                              b :: b2 :: b3 :: b4 :: utf8Lossy fuel rest4
                            else 239 :: 191 :: 189 :: utf8Lossy fuel rest
                        | [] => 239 :: 191 :: 189 :: utf8Lossy fuel rest
                  | [] => 239 :: 191 :: 189 :: utf8Lossy fuel rest
            | [] => [239, 191, 189]

/-- `BufWalker::read`: dispatch on the node kind; scalars decode big-endian,
strings decode lossily, `Struct`/`Array` produce empty placeholders. -/
def walkRead (node : Ast) (buf : List Nat) (pos : Nat) : WRes Value :=
  match node.kind with
  | .int8 =>
      match readNumber buf pos 1 with
      | .ok bs p => .ok (.number (.int8 (twosComplement 8 (beNat bs)))) p
      | .err e => .err e
      | .aborted => .aborted
  | .int16 =>
      match readNumber buf pos 2 with
      | .ok bs p => .ok (.number (.int16 (twosComplement 16 (beNat bs)))) p
      | .err e => .err e
      | .aborted => .aborted
  | .int32 =>
      match readNumber buf pos 4 with
      | .ok bs p => .ok (.number (.int32 (twosComplement 32 (beNat bs)))) p
      | .err e => .err e
      | .aborted => .aborted
  | .uint8 =>
      match readNumber buf pos 1 with
      | .ok bs p => .ok (.number (.uint8 (beNat bs))) p
      | .err e => .err e
      | .aborted => .aborted
  | .uint16 =>
      match readNumber buf pos 2 with
      | .ok bs p => .ok (.number (.uint16 (beNat bs))) p
      | .err e => .err e
      | .aborted => .aborted
  | .uint32 =>
      match readNumber buf pos 4 with
      | .ok bs p => .ok (.number (.uint32 (beNat bs))) p
      | .err e => .err e
      | .aborted => .aborted
  | .float32 =>
      match readNumber buf pos 4 with
      | .ok bs p => .ok (.number (.float32 (beNat bs))) p
      | .err e => .err e
      | .aborted => .aborted
  | .float64 =>
      match readNumber buf pos 8 with
      | .ok bs p => .ok (.number (.float64 (beNat bs))) p
      | .err e => .err e
      | .aborted => .aborted
  | .str =>
      match readStr buf pos with
      | .ok bs p => .ok (.string (utf8Lossy (bs.length + 1) bs)) p
      | .err e => .err e
      | .aborted => .aborted
  | .nstr size =>
      match readNstr buf pos size with
      | .ok bs p => .ok (.string (utf8Lossy (bs.length + 1) bs)) p
      | .err e => .err e
      | .aborted => .aborted
  | .struct _ => .ok .structV pos
  | .array _ _ => .ok .arrayV pos

/-! ## Decimal rendering (Rust `Display` of the integer types) -/

/-- Decimal digits of a natural number (fuel-driven division loop). -/
def natDecGo : Nat → Nat → List Nat
  | 0, _ => []
  | fuel + 1, n =>
      if n < 10 then [48 + n] else natDecGo fuel (n / 10) ++ [48 + n % 10]

/-- Decimal byte string of a natural number, as written by `write!("{n}")`
for the unsigned integer types. -/
def natDec (n : Nat) : List Nat := natDecGo (n + 1) n

/-- Decimal byte string of an integer, as written by `write!("{n}")` for the
signed integer types. -/
def intDec (i : Int) : List Nat :=
  if i < 0 then 45 :: natDec i.natAbs else natDec i.toNat

/-- Placeholder for Rust's `Display` of `f32`/`f64` (shortest-round-trip
floating-point rendering, outside this embedding; no claim and no theorem
below evaluates it). -/
def floatDec (bits : Nat) : List Nat := [bits]

/-! ## JSON string escaping (src/src/utils.rs) -/

/-- `json_escape_byte`: the escape class of one byte (the match arms in
source order; `Some(b'u')` stands for a `\uXXXX` escape). -/
def jsonEscapeByte (b : Nat) : Option Nat :=
  if b = 8 then some 98          -- \b
  else if b = 9 then some 116    -- \t
  else if b = 10 then some 110   -- \n
  else if b = 12 then some 102   -- \f
  else if b = 13 then some 114   -- \r
  else if b ≤ 31 ∨ b = 127 then some 117
  else if b = 34 then some 34
  else if b = 92 then some 92
  else none

/-- Uppercase hex digit. -/
def hexDigit (n : Nat) : Nat := if n < 10 then 48 + n else 55 + n

/-- The four bytes of `format!("\u{:04X}", byte)` after the `\u`. -/
def hex4 (n : Nat) : List Nat :=
  [hexDigit (n / 4096 % 16), hexDigit (n / 256 % 16), hexDigit (n / 16 % 16),
    hexDigit (n % 16)]

/-- UTF-8 bytes of `escaped_string.push(*byte as char)`: the byte value is
reinterpreted as a Unicode scalar value, so bytes ≥ 0x80 become a two-byte
sequence. -/
def pushByteAsChar (b : Nat) : List Nat :=
  if b < 128 then [b] else [192 + b / 64, 128 + b % 64]

/-- The escape loop of `json_escape_str` over `input[i..]`. -/
def jsonEscapeTail (bytes : List Nat) : List Nat :=
  bytes.flatMap (fun b =>
    match jsonEscapeByte b with
    | some 117 => 92 :: 117 :: hex4 b
    | some c => [92, c]
    | none => pushByteAsChar b)

/-- `json_escape_str` on the UTF-8 bytes of its input: borrowed unchanged
when no byte needs escaping, else the clean prefix is copied verbatim and
the rest goes through the escape loop. -/
def jsonEscapeStr (s : List Nat) : List Nat :=
  match s.findIdx? (fun b => (jsonEscapeByte b).isSome) with
  | none => s
  | some i => s.take i ++ jsonEscapeTail (s.drop i)

/-! ## Oneline schema formatter (src/src/visitor.rs, `SchemaOnelineFormatter`)

The visitor recursion (`visit` dispatching to `visit_struct` / `visit_array`
/ `visit_builtin`, each recursing into children) is one fuel-indexed step
function over two modes: one node, or the member loop of `visit_struct`. -/

/-- `SchemaOnelineFormatter::write_name`: nothing for the array-element name
`"[]"`, else `name:`. -/
def writeName (name : List Nat) : List Nat :=
  if name = ascii "[]" then [] else name ++ ascii ":"

/-- The builtin spellings of `visit_builtin`. -/
def builtinText : AstKind → Option (List Nat)
  | .int8 => some (ascii "INT8")
  | .int16 => some (ascii "INT16")
  | .int32 => some (ascii "INT32")
  | .uint8 => some (ascii "UINT8")
  | .uint16 => some (ascii "UINT16")
  | .uint32 => some (ascii "UINT32")
  | .float32 => some (ascii "FLOAT32")
  | .float64 => some (ascii "FLOAT64")
  | .str => some (ascii "STR")
  | .nstr n => some (ascii "<" ++ natDec n ++ ascii ">NSTR")
  | _ => none

/-- The `{n}` / `{name}` / `+` written by `visit_array`. -/
def lenText : Len → List Nat
  | .fixed n => ascii "\x7b" ++ natDec n ++ ascii "\x7d"
  | .variab s => ascii "\x7b" ++ s ++ ascii "\x7d"
  | .unlimited => ascii "+"

/-- Formatter modes: one node (`visit`) or the member loop of
`visit_struct`. -/
inductive FMode where
  | one (a : Ast)
  | fields (members : List Ast)

/-- One fuel-indexed step of the oneline formatter; `none` is fuel
exhaustion (the Rust recursion has no failure path). -/
def fmtGo : Nat → FMode → Option (List Nat)
  | 0, _ => none
  | fuel + 1, .one (.mk name kind) =>
      match kind with
      | .struct children =>
          if name.isEmpty then fmtGo fuel (.fields children)
          else do
            let inner ← fmtGo fuel (.fields children)
            pure (writeName name ++ ascii "[" ++ inner ++ ascii "]")
      | .array len element => do
          let inner ← fmtGo fuel (.one element)
          pure (writeName name ++ lenText len ++ inner)
      | other =>
          match builtinText other with
          | some text => some (writeName name ++ text)
          | none => none
  | _ + 1, .fields [] => some []
  | fuel + 1, .fields [a] => fmtGo fuel (.one a)
  | fuel + 1, .fields (a :: rest) => do
      let first ← fmtGo fuel (.one a)
      let more ← fmtGo fuel (.fields rest)
      pure (first ++ ascii "," ++ more)

/-- `SchemaOnelineDisplay`: format an AST on one line. -/
def oneline (fuel : Nat) (a : Ast) : Option (List Nat) := fmtGo fuel (.one a)

/-! ## JSON serializer (src/src/visitor.rs, `JsonSerializer`) -/

/-- `JsonFormattingStyle`. -/
inductive JsonFormattingStyle where
  | minimal
  | pretty
  deriving DecidableEq

/-- Serializer state: the walker cursor, the cloned `ParamStack`, the indent
level and the output accumulated in the `Formatter`. -/
structure JState where
  pos : Nat
  params : ParamStack
  indent : Nat
  out : List Nat

/-- Serializer outcome; `aborted` models the `unreachable!()` arms. -/
inductive JOut where
  | ok (st : JState)
  | err (e : Error)
  | aborted
  | fuelOut

/-- Serializer modes: `visit` on a node, the member loop of `visit_struct`,
the counted element loop of `visit_array` (`Fixed`/`Variable`), and the
`Unlimited` element loop. -/
inductive JMode where
  | visit (node : Ast)
  | fields (children : List Ast)
  | countLoop (element : Ast) (remaining : Nat)
  | unlim (element : Ast) (isFirst : Bool)

/-- `write_newline` (pretty only). -/
def jNewline (style : JsonFormattingStyle) (st : JState) : JState :=
  if style = .pretty then { st with out := st.out ++ [10] } else st

/-- `write_indent` (pretty only; two spaces per level). -/
def jIndent (style : JsonFormattingStyle) (st : JState) : JState :=
  if style = .pretty then
    { st with out := st.out ++ List.replicate (st.indent * 2) 32 }
  else st

/-- `write_post_colon_space` (pretty only). -/
def jSpace (style : JsonFormattingStyle) (st : JState) : JState :=
  if style = .pretty then { st with out := st.out ++ [32] } else st

/-- `JsonSerializer::write_number`: Rust `Display` of the wrapped value. -/
def numberText : Number → List Nat
  | .int8 v | .int16 v | .int32 v => intDec v
  | .uint8 v | .uint16 v | .uint32 v => natDec v
  | .float32 bits | .float64 bits => floatDec bits

/-- One fuel-indexed step of the JSON serializer. -/
def jStep (buf : List Nat) (style : JsonFormattingStyle) :
    Nat → JMode → JState → JOut
  | 0, _, _ => .fuelOut
  | fuel + 1, .visit node, st =>
      match node.kind with
      | .struct children =>
          -- visit_struct
          let st := { st with out := st.out ++ ascii "\x7b" }
          let st := jNewline style st
          let st := { st with params := st.params.createScope, indent := st.indent + 1 }
          match jStep buf style fuel (.fields children) st with
          | .ok st =>
              let st := { st with indent := st.indent - 1,
                                  params := st.params.clearScope }
              let st := jIndent style st
              .ok { st with out := st.out ++ ascii "\x7d" }
          | other => other
      | .array len element =>
          -- visit_array
          let st := { st with out := st.out ++ ascii "[" }
          let st := jNewline style st
          let st := { st with indent := st.indent + 1 }
          let loopOut :=
            match len with
            | .unlimited => jStep buf style fuel (.unlim element true) st
            | .fixed n => jStep buf style fuel (.countLoop element n) st
            | .variab s =>
                match st.params.getValue s with
                | some n => jStep buf style fuel (.countLoop element n) st
                | none => .err .general
          match loopOut with
          | .ok st =>
              let st := jNewline style st
              let st := { st with indent := st.indent - 1 }
              let st := jIndent style st
              .ok { st with out := st.out ++ ascii "]" }
          | other => other
      | _ =>
          -- visit_builtin
          match walkRead node buf st.pos with
          | .err e => .err e
          | .aborted => .aborted
          | .ok value pos =>
              let st := { st with pos := pos }
              match value with
              | .number n =>
                  let st := { st with out := st.out ++ numberText n }
                  if st.params.contains node.name then
                    match n.tryIntoUsize with
                    | .error e => .err e
                    | .ok v =>
                        .ok { st with params := st.params.pushValue node.name v }
                  else .ok st
              | .string sVal =>
                  let st := { st with
                    out := st.out ++ ascii "\"" ++ jsonEscapeStr sVal ++ ascii "\"" }
                  if st.params.contains node.name then .err .general
                  else .ok st
              | _ => .aborted
  | _ + 1, .fields [], st => .ok st
  | fuel + 1, .fields (child :: rest), st =>
      let st := jIndent style st
      let st := { st with
        out := st.out ++ ascii "\"" ++ jsonEscapeStr child.name ++ ascii "\":" }
      let st := jSpace style st
      match jStep buf style fuel (.visit child) st with
      | .ok st =>
          let st := if rest.isEmpty then st else { st with out := st.out ++ ascii "," }
          let st := jNewline style st
          jStep buf style fuel (.fields rest) st
      | other => other
  | _ + 1, .countLoop _ 0, st => .ok st
  | fuel + 1, .countLoop element (n + 1), st =>
      let st := jIndent style st
      match jStep buf style fuel (.visit element) st with
      | .ok st =>
          if n = 0 then .ok st
          else
            let st := { st with out := st.out ++ ascii "," }
            let st := jNewline style st
            jStep buf style fuel (.countLoop element n) st
      | other => other
  | fuel + 1, .unlim element isFirst, st =>
      -- while !self.walker.reached_end(); `reached_end` is not in the
      -- walker.rs snapshot and is modelled from the spec: "decode until the
      -- buffer is exhausted".
      if st.pos ≥ buf.length then .ok st
      else
        let st := if isFirst then st
          else jNewline style { st with out := st.out ++ ascii "," }
        let st := jIndent style st
        match jStep buf style fuel (.visit element) st with
        | .ok st => jStep buf style fuel (.unlim element false) st
        | other => other

/-- `JsonDisplay::fmt`: serialize a schema's AST over a buffer with a clone
of the schema's `ParamStack` (formatting errors are `unwrap`ed in the Rust
`Display` impl; the outcome is kept here). -/
def jsonDisplay (fuel : Nat) (schema : Schema) (buf : List Nat)
    (style : JsonFormattingStyle) : JOut :=
  jStep buf style fuel (.visit schema.ast) ⟨0, schema.params, 0, []⟩

/-! ## Reader options (src/src/reader/options.rs) -/

/-- `DataReaderOptions(u32)`: a bit set. -/
structure DataReaderOptions where
  inner : Nat
  deriving DecidableEq

namespace DataReaderOptions

def enableReadingBody : DataReaderOptions := ⟨2⟩
def ignoreDataSizeField : DataReaderOptions := ⟨4⟩
def allowTrailingComma : DataReaderOptions := ⟨8⟩

/-- `DataReaderOptions::union` / `BitOr`. -/
def union (o flag : DataReaderOptions) : DataReaderOptions :=
  ⟨o.inner.lor flag.inner⟩

/-- `DataReaderOptions::contains`: `self & flag != 0`. -/
def contains (o flag : DataReaderOptions) : Bool :=
  o.inner.land flag.inner ≠ 0

end DataReaderOptions

/-! ## Container reader (src/src/reader.rs)

`DataReader` reads from a `BufRead + Seek` source; the embedding models the
source as an in-memory byte list with a cursor (`Cursor<&[u8]>`, which is
what the source's own tests use).  `read_until`, `read_exact`, `seek` and
`read_to_end` are the std semantics on that cursor. -/

/-- An in-memory seekable stream. -/
structure Stream where
  data : List Nat
  pos : Nat

/-- The bytes `read_until(b'\n')` returns from the head of a list: up to and
including the first newline, or everything if none. -/
def takeLine : List Nat → List Nat
  | [] => []
  | b :: rest => if b = 10 then [10] else b :: takeLine rest

/-- `read_until(b'\n', &mut buf)`: the chunk read and the advanced stream. -/
def readUntil (s : Stream) : List Nat × Stream :=
  let chunk := takeLine (s.data.drop s.pos)
  (chunk, { s with pos := s.pos + chunk.length })

/-- Reader outcome (`aborted` only arises through an embedded parser abort;
`fuelOut` is fuel exhaustion of the embedding's loops). -/
inductive RRes (α : Type) where
  | ok (a : α)
  | err (e : Error)
  | aborted
  | fuelOut

/-- `DataReader::find_magic`: scan line by line, accumulating into one
buffer, until the accumulated bytes end with `"WN\n"`; a zero-length read
(end of stream) is the magic-not-found error. -/
def findMagicGo : Nat → Stream → List Nat → RRes Stream
  | 0, _, _ => .fuelOut
  | fuel + 1, s, buf =>
      let (chunk, s') := readUntil s
      if chunk.length = 0 then .err .magicNotFound
      else
        let buf := buf ++ chunk
        if 3 ≤ buf.length ∧ buf.drop (buf.length - 3) = ascii "WN\n" then .ok s'
        else findMagicGo fuel s' buf

/-- The inner loop of `read_header_fields` that joins lines whose newline is
escaped by a backslash: read a line into the accumulated buffer; stop unless
the byte before the newline is `\\`, in which case both are popped and the
next line is joined on. -/
def headerLineGo : Nat → Stream → List Nat → RRes (List Nat × Stream)
  | 0, _, _ => .fuelOut
  | fuel + 1, s, buf =>
      let (chunk, s') := readUntil s
      if chunk.length = 0 then .err .headerEof
      else
        let buf := buf ++ chunk
        if buf.length < 2 then .ok (buf, s')
        else if (buf.drop (buf.length - 2)).head? ≠ some 92 then .ok (buf, s')
        else headerLineGo fuel s' (buf.take (buf.length - 2))

/-- `HashMap::insert` for the header field map (replace an existing key in
place, append a new one). -/
def hdrInsert (k v : List Nat) : List (List Nat × List Nat) → List (List Nat × List Nat)
  | [] => [(k, v)]
  | (k', v') :: rest =>
      if k' = k then (k, v) :: rest else (k', v') :: hdrInsert k v rest

/-- The outer loop of `read_header_fields`: probe two bytes for the
separator magic `04 1A`; on a mismatch rewind and read one (joined) header
line, pop its trailing newline, split it at the first `=` (no `=` is an
error) and insert it into the map. -/
def headerFieldsGo : Nat → Stream → List (List Nat × List Nat) →
    RRes (List (List Nat × List Nat) × Stream)
  | 0, _, _ => .fuelOut
  | fuel + 1, s, map =>
      -- read_exact(&mut sep_buf)
      if s.pos + 2 > s.data.length then .err .headerEof
      else if (s.data.drop s.pos).take 2 = [4, 26] then
        .ok (map, { s with pos := s.pos + 2 })
      else
        -- seek(SeekFrom::Current(-2)), then read one escaped-joined line
        match headerLineGo (s.data.length + 1) s [] with
        | .err e => .err e
        | .aborted => .aborted
        | .fuelOut => .fuelOut
        | .ok (line, s') =>
            let line := line.dropLast   -- remove a trailing newline
            match line.findIdx? (fun b => b = 61) with
            | some i =>
                headerFieldsGo fuel s' (hdrInsert (line.take i) (line.drop (i + 1)) map)
            | none => .err .headerNoEq

/-- `FieldMap::get_field` (`HashMap::get`). -/
def hdrGet (map : List (List Nat × List Nat)) (name : List Nat) : Option (List Nat) :=
  (map.find? (fun e => e.1 = name)).map (fun e => e.2)

/-- `str::parse::<usize>` after `String::from_utf8_lossy`: an optional `+`
sign followed by at least one ASCII digit (a non-UTF-8 byte is not a digit,
so it fails just as the replacement character does). -/
def parseUsize (s : List Nat) : Option Nat :=
  let digits := match s with
    | 43 :: rest => rest
    | _ => s
  if digits.isEmpty then none
  else if digits.all isDigitByte then some (decVal digits) else none

/-- The two decompression codecs named by `compress_type`. -/
inductive CompressAlg where
  | gzip
  | bzip2

/-- The flate2/bzip2 decoders are external collaborator crates, so their
behavior is a parameter of the embedding: a successful decode or a failure.
Every theorem below quantifies over it or avoids compressed bodies. -/
def Decomp : Type := CompressAlg → List Nat → Option (List Nat)

/-- `DataReader::read_body`: `read_to_end` everything that remains; unless
the ignore-data-size option is set, fail if fewer bytes than `body_size`
were read, else truncate to `body_size`; then decompress per
`compress_type` (an unknown value is an error). -/
def readBody (options : DataReaderOptions) (decomp : Decomp) (s : Stream)
    (bodySize : Nat) (compressType : Option (List Nat)) : Except Error (List Nat) := do
  let buf := s.data.drop s.pos
  let buf ←
    if ¬ options.contains .ignoreDataSizeField then
      if buf.length < bodySize then
        Except.error (.bodyShortRead buf.length bodySize)
      else pure (buf.take bodySize)
    else pure buf
  match compressType with
  | none => pure buf
  | some ct =>
      if ct = ascii "gzip" then
        match decomp .gzip buf with
        | some decoded => pure decoded
        | none => Except.error (.decompressFailed (ascii "gzip"))
      else if ct = ascii "bzip2" then
        match decomp .bzip2 buf with
        | some decoded => pure decoded
        | none => Except.error (.decompressFailed (ascii "bzip2"))
      else Except.error (.unknownCompressType ct)

/-- `DataReader::read`: rewind, find the magic, read the header fields,
parse the required `format` field as a schema, and (when body reading is
enabled) read the body using the required `data_size` and the optional
`compress_type` fields. -/
def dataReaderRead (options : DataReaderOptions) (decomp : Decomp)
    (data : List Nat) : RRes (Schema × List (List Nat × List Nat) × List Nat) :=
  let s : Stream := ⟨data, 0⟩
  match findMagicGo (data.length + 1) s [] with
  | .err e => .err e
  | .aborted => .aborted
  | .fuelOut => .fuelOut
  | .ok s =>
      match headerFieldsGo (data.length + 1) s [] with
      | .err e => .err e
      | .aborted => .aborted
      | .fuelOut => .fuelOut
      | .ok (map, s) =>
          match hdrGet map (ascii "format") with
          | none => .err (.fieldNotFound (ascii "format"))
          | some formatText =>
              match parse formatText with
              | .perr e => .err (.schemaErr e)
              | .aborted => .aborted
              | .fuelOut => .fuelOut
              | .ok schema =>
                  if options.contains .enableReadingBody then
                    match hdrGet map (ascii "data_size") with
                    | none => .err (.fieldNotFound (ascii "data_size"))
                    | some sizeText =>
                        match parseUsize sizeText with
                        | none => .err .dataSizeNotInt
                        | some bodySize =>
                            match readBody options decomp s bodySize
                                (hdrGet map (ascii "compress_type")) with
                            | .error e => .err e
                            | .ok body => .ok (schema, map, body)
                  else .ok (schema, map, [])

/-! ## Decode-time scope programs over a `ParamStack` (for claim C3)

The decode-time callers of `ParamStack` (the JSON serializer and its peers)
issue `create_scope`/`clear_scope` in a bracketed fashion around each struct
instance, with `push_value` calls in between; `add_entry` is a parse-time
operation.  `Prog` is the language of such well-bracketed operation
sequences, and `runProg` executes one against a `ParamStack`. -/

inductive Prog where
  | pushV (name : List Nat) (v : Nat)
  | addE (name : List Nat)
  | nop
  | seq (a b : Prog)
  | scope (body : Prog)

/-- Execute a program: `scope body` is the `create_scope()` / `clear_scope()`
bracket around `body`. -/
def runProg : Prog → ParamStack → ParamStack
  | .pushV name v, p => p.pushValue name v
  | .addE name, p => p.addEntry name
  | .nop, p => p
  | .seq a b, p => runProg b (runProg a p)
  | .scope body, p => (runProg body p.createScope).clearScope

/-- The names a program pushes directly in the current scope (not inside a
nested bracket). -/
def directPushes : Prog → List (List Nat)
  | .pushV name _ => [name]
  | .seq a b => directPushes a ++ directPushes b
  | _ => []

/-- Whether a program avoids `add_entry` (decode-time programs do). -/
def noAdd : Prog → Bool
  | .addE _ => false
  | .seq a b => noAdd a && noAdd b
  | .scope body => noAdd body
  | _ => true

/-- Every nested bracket pushes each name at most once in its own scope. -/
def scopesOk : Prog → Prop
  | .seq a b => scopesOk a ∧ scopesOk b
  | .scope body => (directPushes body).Nodup ∧ scopesOk body
  | _ => True

def scopesOkDec : (p : Prog) → Decidable (scopesOk p)
  | .pushV _ _ => .isTrue trivial
  | .addE _ => .isTrue trivial
  | .nop => .isTrue trivial
  | .seq a b => @instDecidableAnd _ _ (scopesOkDec a) (scopesOkDec b)
  | .scope body => @instDecidableAnd _ _ inferInstance (scopesOkDec body)

instance (p : Prog) : Decidable (scopesOk p) := scopesOkDec p

/-- The invariant every `ParamStack` reachable from `ParamStack::new`
satisfies: each stack's recorded levels strictly increase toward the top and
never exceed the current level. -/
def Inv (p : ParamStack) : Prop :=
  ∀ e ∈ p.tbl, List.Chain' (fun a b => a.1 < b.1) e.2 ∧ ∀ x ∈ e.2, x.1 ≤ p.level

instance (p : ParamStack) : Decidable (Inv p) :=
  inferInstanceAs (Decidable (∀ e ∈ p.tbl,
    List.Chain' (fun a b : Nat × Nat => a.1 < b.1) e.2 ∧ ∀ x ∈ e.2, x.1 ≤ p.level))

/-- How one table entry may change across a balanced program run at level
`L`: unchanged, or (for a directly pushed name) exactly one `(L, v)`
appended. -/
def EntryRel (L : Nat) (names : List (List Nat))
    (e e' : List Nat × List (Nat × Nat)) : Prop :=
  e'.1 = e.1 ∧ (e' = e ∨ (e.1 ∈ names ∧ ∃ v, e'.2 = e.2 ++ [(L, v)]))

/-! ## Text bookkeeping for the round-trip claim (C5) -/

/-- The bytes of `l` in the half-open position range `[a, b)`. -/
def extract (l : List Nat) (a b : Nat) : List Nat := (l.drop a).take (b - a)

/-- The source text of one token, as the oneline formatter re-emits it. -/
def tokenText : TokenKind → List Nat
  | .ident s => s
  | .number n => natDec n
  | .colon => [58]
  | .comma => [44]
  | .lbracket => [91]
  | .rbracket => [93]
  | .langle => [60]
  | .rangle => [62]
  | .lbrace => [123]
  | .rbrace => [125]
  | .plus => [43]

/-- What a successful type parse guarantees for the formatter: the consumed
bytes are re-emitted after the (nonempty) field name, with any fuel above
the consumed byte count. -/
def TypeConc (input : List Nat) (kind : AstKind) (st st' : PState) : Prop :=
  st.pos < st'.pos ∧ st'.pos ≤ input.length ∧
  ∀ (name : List Nat) (F : Nat), name ≠ [] → st'.pos - st.pos < F →
    fmtGo F (.one (Ast.mk name kind)) =
      some (writeName name ++ extract input st.pos st'.pos)

/-- What a successful field-list parse (entered with `ms` accumulated)
guarantees: the new members re-emit exactly the consumed bytes, except that
a trailing comma directly before the end of input is consumed without being
re-emitted; the loop stops only at end of input or before a `]`, and stops
with nothing consumed only at end of input. -/
def FieldsConc (input : List Nat) (ms : List Ast) (kind : AstKind)
    (st st' : PState) : Prop :=
  st.pos ≤ st'.pos ∧ (st'.pos ≤ input.length ∨ st' = st) ∧
  (lexNext input st'.pos = none ∨
    ∃ tr, lexNext input st'.pos = some (.ok tr) ∧ tr.kind = .rbracket) ∧
  ∃ new t, kind = .struct (ms ++ new) ∧
    (new = [] → st' = st ∧ lexNext input st'.pos = none) ∧
    (∀ F : Nat, st'.pos - st.pos < F → fmtGo F (.fields new) = some t) ∧
    (extract input st.pos st'.pos = t ∨
      (extract input st.pos st'.pos = t ++ [44] ∧ lexNext input st'.pos = none))

/-! ## Theorems for the claims -/

/-! ### Round-trip lemmas (claim C5) -/

theorem extract_self (l : List Nat) (a : Nat) : extract l a a = [] := by
  simp [extract]

theorem extract_append {l : List Nat} {a b c : Nat} (hab : a ≤ b) (hbc : b ≤ c) :
    extract l a b ++ extract l b c = extract l a c := by
  unfold extract
  rw [show c - a = (b - a) + (c - b) by omega, List.take_add, List.drop_drop,
    show a + (b - a) = b by omega]

theorem extract_all {l : List Nat} {b : Nat} (h : l.length ≤ b) :
    extract l 0 b = l := by
  unfold extract
  simp [List.take_of_length_le, Nat.le_sub_of_add_le, h]

theorem extract_head {l : List Nat} {pos : Nat} {b : Nat}
    (h : (l.drop pos).head? = some b) : extract l pos (pos + 1) = [b] := by
  unfold extract
  rw [show pos + 1 - pos = 1 by omega]
  cases hd : l.drop pos with
  | nil => rw [hd] at h; cases h
  | cons x xs =>
      rw [hd] at h
      simp only [List.head?_cons, Option.some.injEq] at h
      simp [h]

theorem extract_takeWhile {l : List Nat} {pos : Nat} (p : Nat → Bool) :
    extract l pos (pos + ((l.drop pos).takeWhile p).length) =
      (l.drop pos).takeWhile p := by
  unfold extract
  rw [show pos + ((l.drop pos).takeWhile p).length - pos =
    ((l.drop pos).takeWhile p).length by omega]
  exact (List.prefix_iff_eq_take.mp (List.takeWhile_prefix p)).symm

/-! Decimal rendering round-trip: `natDec` re-emits the exact digit string a
number token was lexed from (no leading zeros: the lexer only starts a
number at `1`–`9`). -/

theorem natDecGo_irrel : ∀ (n f₁ f₂ : Nat), n < f₁ → n < f₂ →
    natDecGo f₁ n = natDecGo f₂ n := by
  intro n
  induction n using Nat.strong_induction_on with
  | _ n ih =>
      intro f₁ f₂ h₁ h₂
      cases f₁ with
      | zero => omega
      | succ g₁ =>
          cases f₂ with
          | zero => omega
          | succ g₂ =>
              simp only [natDecGo]
              by_cases hn : n < 10
              · simp [hn]
              · simp only [hn, if_false]
                have hq : n / 10 < n := Nat.div_lt_self (by omega) (by omega)
                rw [ih (n / 10) hq g₁ (n / 10 + 1) (by omega) (by omega),
                  ih (n / 10) hq g₂ (n / 10 + 1) (by omega) (by omega)]

theorem natDecGo_succ_ge10 (f n : Nat) (h : ¬ n < 10) :
    natDecGo (f + 1) n = natDecGo f (n / 10) ++ [48 + n % 10] := by
  simp [natDecGo, h]

theorem natDec_ten_shift {v e : Nat} (hv : 1 ≤ v) (he : e < 10) :
    natDec (10 * v + e) = natDec v ++ [48 + e] := by
  unfold natDec
  rw [natDecGo_succ_ge10 _ _ (by omega)]
  have hq : (10 * v + e) / 10 = v := by omega
  have hr : (10 * v + e) % 10 = e := by omega
  rw [hq, hr, natDecGo_irrel v (10 * v + e) (v + 1) (by omega) (by omega)]

theorem decVal_append (ds : List Nat) (d : Nat) :
    decVal (ds ++ [d]) = 10 * decVal ds + (d - 48) := by
  unfold decVal
  rw [List.foldl_append]
  simp [Nat.mul_comm]

theorem decVal_pos : ∀ (b : Nat) (rest : List Nat), 49 ≤ b → b ≤ 57 →
    1 ≤ decVal (b :: rest) := by
  have step : ∀ (l : List Nat) (acc : Nat), 1 ≤ acc →
      1 ≤ l.foldl (fun acc d => acc * 10 + (d - 48)) acc := by
    intro l
    induction l with
    | nil => intro acc h; exact h
    | cons x xs ih =>
        intro acc h
        exact ih (acc * 10 + (x - 48)) (by omega)
  intro b rest hb₁ hb₂
  unfold decVal
  simp only [List.foldl_cons]
  exact step _ _ (by omega)

theorem natDec_decVal : ∀ (ds : List Nat), (∀ d ∈ ds, isDigitByte d) →
    (∃ b rest, ds = b :: rest ∧ 49 ≤ b ∧ b ≤ 57) →
    natDec (decVal ds) = ds := by
  intro ds
  induction ds using List.reverseRecOn with
  | nil => rintro _ ⟨b, rest, h, _⟩; cases h
  | append_singleton ds d ih =>
      rintro hdig ⟨b, rest, hcons, hb₁, hb₂⟩
      have hd : isDigitByte d := hdig d (List.mem_append_right _ (List.mem_singleton_self d))
      simp only [isDigitByte, Bool.and_eq_true, decide_eq_true_eq] at hd
      rw [decVal_append]
      cases ds with
      | nil =>
          simp only [List.nil_append, List.cons.injEq] at hcons
          obtain ⟨rfl, _⟩ := hcons
          unfold decVal
          simp only [List.foldl_nil, Nat.mul_zero, Nat.zero_add]
          unfold natDec
          have hlt : d - 48 < 10 := by omega
          simp only [natDecGo, hlt, if_true]
          rw [show 48 + (d - 48) = d by omega]
          rfl
      | cons x xs =>
          have hxb : x = b := by
            have := congrArg List.head? hcons
            simpa using this
          have hhead : ∃ b' rest', x :: xs = b' :: rest' ∧ 49 ≤ b' ∧ b' ≤ 57 :=
            ⟨x, xs, rfl, by omega, by omega⟩
          have hdig' : ∀ e ∈ x :: xs, isDigitByte e :=
            fun e he => hdig e (List.mem_append_left _ he)
          have hv : 1 ≤ decVal (x :: xs) := decVal_pos x xs (by omega) (by omega)
          rw [natDec_ten_shift hv (by omega), ih hdig' hhead,
            show 48 + (d - 48) = d by omega]

/-! Lexer text lemmas. -/

theorem writeName_of_letter_head {s : List Nat}
    (h : ∃ b rest, s = b :: rest ∧ isLetterByte b) :
    writeName s = s ++ [58] := by
  obtain ⟨b, rest, rfl, hb⟩ := h
  unfold writeName
  rw [if_neg]
  · rfl
  · intro hc
    have : b = 91 := by
      have := congrArg List.head? hc
      simpa [ascii] using this
    subst this
    simp [isLetterByte] at hb

/-- Everything the formatter needs to know about one successfully lexed
token: it sits exactly on the bytes `[pos, t.pos)`, those bytes are its
re-emitted text, and identifiers start with a letter. -/
theorem lexNext_ok_facts {input : List Nat} {pos : Nat} {t : Token}
    (h : lexNext input pos = some (.ok t)) :
    pos < t.pos ∧ t.pos ≤ input.length ∧
      extract input pos t.pos = tokenText t.kind ∧
      (∀ s, t.kind = .ident s →
        ∃ b rest, s = b :: rest ∧ isLetterByte b) := by
  unfold lexNext at h
  rcases hdrop : input.drop pos with _ | ⟨b, xs⟩
  · rw [hdrop] at h
    cases h
  rw [hdrop] at h
  simp only [List.head?_cons] at h
  have hpos : pos < input.length := by
    have hne : input.drop pos ≠ [] := by rw [hdrop]; simp
    exact List.length_lt_of_drop_ne_nil hne
  have hdroplen : xs.length + 1 = input.length - pos := by
    have := congrArg List.length hdrop
    simp at this
    omega
  by_cases hletter : isLetterByte b
  · rw [if_pos hletter] at h
    simp only [Option.some.injEq, Except.ok.injEq] at h
    subst h
    have hident : isIdentByte b := by
      simp only [isLetterByte, Bool.or_eq_true] at hletter
      simp only [isIdentByte, Bool.or_eq_true]
      tauto
    have htw : (input.drop pos).takeWhile isIdentByte = b :: xs.takeWhile isIdentByte := by
      rw [hdrop, List.takeWhile_cons, if_pos hident]
    have het := @extract_takeWhile input pos isIdentByte
    have hlen : ((input.drop pos).takeWhile isIdentByte).length ≤ input.length - pos := by
      have h₁ : ((input.drop pos).takeWhile isIdentByte).length ≤ (input.drop pos).length :=
        (List.takeWhile_prefix isIdentByte).length_le
      rw [hdrop] at h₁ ⊢
      simp only [List.length_cons] at h₁
      omega
    rw [hdrop] at het htw hlen
    refine ⟨by simp [htw], by simp only []; omega, by simpa [htw] using het, ?_⟩
    intro s hs
    simp only [TokenKind.ident.injEq] at hs
    exact ⟨b, xs.takeWhile isIdentByte, hs ▸ htw.symm ▸ rfl, hletter⟩
  · rw [if_neg hletter] at h
    by_cases hdigit : (49 ≤ b && b ≤ 57 : Bool)
    · rw [if_pos hdigit] at h
      simp only [Bool.and_eq_true, decide_eq_true_eq] at hdigit
      simp only [Option.some.injEq, Except.ok.injEq] at h
      subst h
      have hdigbyte : isDigitByte b = true := by
        simp only [isDigitByte, Bool.and_eq_true, decide_eq_true_eq]
        omega
      have htw : (input.drop pos).takeWhile isDigitByte = b :: xs.takeWhile isDigitByte := by
        rw [hdrop, List.takeWhile_cons, if_pos hdigbyte]
      have het := @extract_takeWhile input pos isDigitByte
      have hlen : ((input.drop pos).takeWhile isDigitByte).length ≤ input.length - pos := by
        have h₁ : ((input.drop pos).takeWhile isDigitByte).length ≤ (input.drop pos).length :=
        (List.takeWhile_prefix isDigitByte).length_le
        rw [hdrop] at h₁ ⊢
        simp only [List.length_cons] at h₁
        omega
      have hrt : natDec (decVal ((input.drop pos).takeWhile isDigitByte)) =
          (input.drop pos).takeWhile isDigitByte := by
        refine natDec_decVal _ (fun d hd' => List.mem_takeWhile_imp hd') ?_
        exact ⟨b, xs.takeWhile isDigitByte, htw, hdigit.1, hdigit.2⟩
      rw [hdrop] at het htw hlen hrt
      refine ⟨by simp [htw], by simp only []; omega, ?_, by intro s hs; cases hs⟩
      show extract input pos (pos + ((b :: xs).takeWhile isDigitByte).length) =
        natDec (decVal ((b :: xs).takeWhile isDigitByte))
      rw [het, hrt]
    · rw [if_neg hdigit] at h
      have hd : (input.drop pos).head? = some b := by rw [hdrop]; rfl
      have hsym : ∀ (k : TokenKind) (c : Nat), b = c → tokenText k = [c] →
          (∀ s, k ≠ TokenKind.ident s) →
          (⟨k, pos + 1⟩ : Token) = t →
          pos < t.pos ∧ t.pos ≤ input.length ∧
            extract input pos t.pos = tokenText t.kind ∧
            (∀ s, t.kind = .ident s → ∃ b' rest, s = b' :: rest ∧ isLetterByte b') := by
        rintro k c rfl htxt hknotid rfl
        refine ⟨Nat.lt_succ_self pos, by show pos + 1 ≤ input.length; omega, ?_, ?_⟩
        · show extract input pos (pos + 1) = tokenText k
          rw [extract_head hd, htxt]
        · intro s hs
          exact absurd hs (hknotid s)
      split_ifs at h with h58 h44 h91 h93 h60 h62 h123 h125 h43
      · exact hsym .colon 58 h58 rfl (by intro s hc; cases hc) (by simpa using h)
      · exact hsym .comma 44 h44 rfl (by intro s hc; cases hc) (by simpa using h)
      · exact hsym .lbracket 91 h91 rfl (by intro s hc; cases hc) (by simpa using h)
      · exact hsym .rbracket 93 h93 rfl (by intro s hc; cases hc) (by simpa using h)
      · exact hsym .langle 60 h60 rfl (by intro s hc; cases hc) (by simpa using h)
      · exact hsym .rangle 62 h62 rfl (by intro s hc; cases hc) (by simpa using h)
      · exact hsym .lbrace 123 h123 rfl (by intro s hc; cases hc) (by simpa using h)
      · exact hsym .rbrace 125 h125 rfl (by intro s hc; cases hc) (by simpa using h)
      · exact hsym .plus 43 h43 rfl (by intro s hc; cases hc) (by simpa using h)
      · simp at h

theorem parseBuiltinType_text {st : PState} {s : List Nat} {kind : AstKind}
    (h : parseBuiltinType st s = .ok kind) : builtinText kind = some s := by
  unfold parseBuiltinType at h
  split_ifs at h with h1 h2 h3 h4 h5 h6 h7 h8 h9
  · cases h; rw [h1]; rfl
  · cases h; rw [h2]; rfl
  · cases h; rw [h3]; rfl
  · cases h; rw [h4]; rfl
  · cases h; rw [h5]; rfl
  · cases h; rw [h6]; rfl
  · cases h; rw [h7]; rfl
  · cases h; rw [h8]; rfl
  · cases h; rw [h9]; rfl

theorem nextToken_ok_inv {input : List Nat} {st : PState} {t : Token} {st' : PState}
    (h : nextToken input st = .ok (t, st')) :
    lexNext input st.pos = some (.ok t) ∧
      st' = { st with pos := t.pos, loc := updLoc st.loc t } := by
  unfold nextToken at h
  cases hl : lexNext input st.pos with
  | none => rw [hl] at h; cases h
  | some r =>
      rw [hl] at h
      cases r with
      | error e => cases h
      | ok t₀ =>
          simp only [Except.ok.injEq, Prod.mk.injEq] at h
          obtain ⟨rfl, h₂⟩ := h
          exact ⟨rfl, h₂.symm⟩

theorem consumeNextToken_ok_inv {input : List Nat} {st st' : PState}
    (h : consumeNextToken input st = .ok st') :
    ∃ t, lexNext input st.pos = some (.ok t) ∧
      st' = { st with pos := t.pos, loc := updLoc st.loc t } := by
  unfold consumeNextToken at h
  cases hl : lexNext input st.pos with
  | none => rw [hl] at h; cases h
  | some r =>
      rw [hl] at h
      cases r with
      | error e => cases h
      | ok t₀ =>
          simp only [CRes.ok.injEq] at h
          exact ⟨t₀, rfl, h.symm⟩

theorem fmtGo_builtin {F : Nat} (hF : 1 ≤ F) {name : List Nat} {k : AstKind}
    {text : List Nat} (h : builtinText k = some text) :
    fmtGo F (.one (Ast.mk name k)) = some (writeName name ++ text) := by
  obtain ⟨F, rfl⟩ : ∃ G, F = G + 1 := ⟨F - 1, by omega⟩
  cases k <;> simp_all [fmtGo, builtinText]

/-! ### Scope-isolation lemmas (claim C3) -/

theorem forall2_entryRel_refl (L : Nat) (names : List (List Nat))
    (t : List (List Nat × List (Nat × Nat))) :
    List.Forall₂ (EntryRel L names) t t :=
  List.forall₂_same.mpr (fun _ _ => ⟨rfl, Or.inl rfl⟩)

theorem forall2_mem_right {α β : Type} {r : α → β → Prop} :
    ∀ {l₁ : List α} {l₂ : List β}, List.Forall₂ r l₁ l₂ →
      ∀ b ∈ l₂, ∃ a ∈ l₁, r a b := by
  intro l₁ l₂ h
  induction h with
  | nil => intro b hb; cases hb
  | @cons a b l₁ l₂ hab _ ih =>
      intro c hc
      rcases List.mem_cons.mp hc with heq | hc
      · exact ⟨a, List.mem_cons_self a l₁, heq ▸ hab⟩
      · obtain ⟨x, hx, hr⟩ := ih c hc
        exact ⟨x, List.mem_cons_of_mem _ hx, hr⟩

theorem entryRel_comp {L : Nat} {ns₁ ns₂ : List (List Nat)}
    (hdisj : ∀ k, k ∈ ns₁ → k ∈ ns₂ → False) :
    ∀ {t₁ t₂ t₃ : List (List Nat × List (Nat × Nat))},
      List.Forall₂ (EntryRel L ns₁) t₁ t₂ →
      List.Forall₂ (EntryRel L ns₂) t₂ t₃ →
      List.Forall₂ (EntryRel L (ns₁ ++ ns₂)) t₁ t₃ := by
  intro t₁ t₂ t₃ h₁
  induction h₁ generalizing t₃ with
  | nil =>
      intro h₂; cases h₂; exact .nil
  | @cons e₁ e₂ l₁ l₂ hab _ ih =>
      intro h₂
      cases h₂ with
      | @cons _ e₃ _ l₃ hbc h₂rest =>
          refine .cons ?_ (ih h₂rest)
          obtain ⟨hk₁, hd₁⟩ := hab
          obtain ⟨hk₂, hd₂⟩ := hbc
          refine ⟨hk₂.trans hk₁, ?_⟩
          rcases hd₁ with heq₁ | ⟨hm₁, v₁, hv₁⟩
          · rcases hd₂ with heq₂ | ⟨hm₂, v₂, hv₂⟩
            · exact Or.inl (heq₂.trans heq₁)
            · exact Or.inr ⟨List.mem_append_right _ (hk₁ ▸ heq₁ ▸ hm₂),
                v₂, by rw [hv₂, heq₁]⟩
          · rcases hd₂ with heq₂ | ⟨hm₂, v₂, hv₂⟩
            · exact Or.inr ⟨List.mem_append_left _ hm₁, v₁, by rw [heq₂, hv₁]⟩
            · exact absurd hm₁ (fun hm₁ => hdisj _ hm₁ (hk₁ ▸ hm₂))

theorem inv_of_entryRel {q q' : ParamStack} {names : List (List Nat)}
    (hInv : Inv q) (hlev : q'.level = q.level)
    (hrel : List.Forall₂ (EntryRel q.level names) q.tbl q'.tbl)
    (hlt : ∀ e ∈ q.tbl, e.1 ∈ names → ∀ x ∈ e.2, x.1 < q.level) :
    Inv q' := by
  intro e' he'
  obtain ⟨e, he, _, hd⟩ := forall2_mem_right hrel e' he'
  rcases hd with heq | ⟨hm, v, hv⟩
  · rw [heq, hlev]
    exact hInv e he
  · constructor
    · rw [hv, List.chain'_append]
      refine ⟨(hInv e he).1, List.chain'_singleton _, ?_⟩
      intro x hx y hy
      simp only [List.head?_cons, Option.mem_def, Option.some.injEq] at hy
      subst hy
      exact hlt e he hm x (List.mem_of_mem_getLast? hx)
    · rw [hv]
      intro x hx
      rcases List.mem_append.mp hx with hx | hx
      · exact hlev ▸ ((hInv e he).2 x hx)
      · simp only [List.mem_singleton] at hx
        subst hx
        exact hlev.ge

theorem entryRel_unchanged_keys {L : Nat} {names : List (List Nat)}
    {t t' : List (List Nat × List (Nat × Nat))}
    (hrel : List.Forall₂ (EntryRel L names) t t') :
    ∀ e' ∈ t', e'.1 ∉ names → ∃ e ∈ t, e' = e := by
  intro e' he' hnm
  obtain ⟨e, he, hk, hd⟩ := forall2_mem_right hrel e' he'
  rcases hd with heq | ⟨hm, _, _⟩
  · exact ⟨e, he, heq⟩
  · exact absurd (hk ▸ hm) hnm

theorem popTopAtLevel_of_le {L : Nat} {s : List (Nat × Nat)}
    (h : ∀ x ∈ s, x.1 ≤ L) :
    ParamStack.popTopAtLevel (L + 1) s = s := by
  unfold ParamStack.popTopAtLevel
  cases hl : s.getLast? with
  | none => rfl
  | some x =>
      rcases x with ⟨l, v⟩
      have hle := h _ (List.mem_of_mem_getLast? hl)
      simp only at hle
      show (if l = L + 1 then s.dropLast else s) = s
      rw [if_neg (by omega)]

theorem popTopAtLevel_append {L : Nat} {s : List (Nat × Nat)} {v : Nat} :
    ParamStack.popTopAtLevel (L + 1) (s ++ [(L + 1, v)]) = s := by
  unfold ParamStack.popTopAtLevel
  rw [List.getLast?_concat]
  simp [List.dropLast_concat]

theorem clear_restores {L : Nat} {names : List (List Nat)} :
    ∀ {t t' : List (List Nat × List (Nat × Nat))},
      List.Forall₂ (EntryRel (L + 1) names) t t' →
      (∀ e ∈ t, ∀ x ∈ e.2, x.1 ≤ L) →
      t'.map (fun e => (e.1, ParamStack.popTopAtLevel (L + 1) e.2)) = t := by
  intro t t' hrel
  induction hrel with
  | nil => intro _; rfl
  | @cons e e' trest trest' hab _ ih =>
      intro hle
      obtain ⟨hk, hd⟩ := hab
      have hrest := ih (fun x hx => hle x (List.mem_cons_of_mem _ hx))
      have hhead : (e'.1, ParamStack.popTopAtLevel (L + 1) e'.2) = e := by
        rcases hd with heq | ⟨_, v, hv⟩
        · rw [heq, popTopAtLevel_of_le (hle e (List.mem_cons_self ..))]
        · rw [hk, hv, popTopAtLevel_append]
      simp only [List.map_cons, hhead, hrest]

theorem forall2_entryRel_nil_eq {L : Nat} :
    ∀ {t t' : List (List Nat × List (Nat × Nat))},
      List.Forall₂ (EntryRel L []) t t' → t' = t := by
  intro t t' h
  induction h with
  | nil => rfl
  | @cons e e' trest trest' hab _ ih =>
      obtain ⟨_, hd⟩ := hab
      rcases hd with heq | ⟨hm, _⟩
      · rw [heq, ih]
      · cases hm

/-- Balanced decode-time programs change a `ParamStack` only by pushing, per
directly pushed name, at most one entry at the current level: the level is
restored and every table entry is unchanged or extended by one `(level, v)`
pair. -/
theorem runProg_rel (body : Prog) :
    ∀ q : ParamStack, noAdd body = true → scopesOk body →
      (directPushes body).Nodup → Inv q →
      (∀ e ∈ q.tbl, e.1 ∈ directPushes body → ∀ x ∈ e.2, x.1 < q.level) →
      (runProg body q).level = q.level ∧
        List.Forall₂ (EntryRel q.level (directPushes body)) q.tbl
          (runProg body q).tbl := by
  induction body with
  | pushV name v =>
      intro q _ _ _ _ _
      refine ⟨rfl, ?_⟩
      show List.Forall₂ _ q.tbl (q.tbl.map _)
      rw [List.forall₂_map_right_iff]
      refine List.forall₂_same.mpr (fun e he => ?_)
      by_cases hk : e.1 = name
      · rw [if_pos hk]
        exact ⟨rfl, Or.inr ⟨by simp [directPushes, hk], v, rfl⟩⟩
      · rw [if_neg hk]
        exact ⟨rfl, Or.inl rfl⟩
  | addE name =>
      intro q hna
      cases hna
  | nop =>
      intro q _ _ _ _ _
      exact ⟨rfl, forall2_entryRel_refl _ _ _⟩
  | seq a b iha ihb =>
      intro q hna hso hnd hinv hlt
      simp only [noAdd, Bool.and_eq_true] at hna
      obtain ⟨hso₁, hso₂⟩ := hso
      simp only [directPushes, List.nodup_append] at hnd
      obtain ⟨hnd₁, hnd₂, hdisj⟩ := hnd
      obtain ⟨hlev₁, hrel₁⟩ := iha q hna.1 hso₁ hnd₁ hinv
        (fun e he hm => hlt e he (List.mem_append_left _ hm))
      have hlt₂ : ∀ e ∈ (runProg a q).tbl, e.1 ∈ directPushes b →
          ∀ x ∈ e.2, x.1 < (runProg a q).level := by
        intro e' he' hm x hx
        have hnm₁ : e'.1 ∉ directPushes a := fun hc => hdisj hc hm
        obtain ⟨e, he, heq⟩ := entryRel_unchanged_keys hrel₁ e' he' hnm₁
        rw [hlev₁]
        rw [heq] at hm hx
        exact hlt e he (List.mem_append_right _ hm) x hx
      have hinv₁ : Inv (runProg a q) :=
        inv_of_entryRel hinv hlev₁ hrel₁
          (fun e he hm => hlt e he (List.mem_append_left _ hm))
      obtain ⟨hlev₂, hrel₂⟩ := ihb (runProg a q) hna.2 hso₂ hnd₂ hinv₁ hlt₂
      constructor
      · show (runProg b (runProg a q)).level = q.level
        rw [hlev₂, hlev₁]
      · show List.Forall₂ (EntryRel q.level (directPushes a ++ directPushes b))
          q.tbl (runProg b (runProg a q)).tbl
        refine entryRel_comp (fun k h₁ h₂ => hdisj h₁ h₂) hrel₁ ?_
        rw [← hlev₁]
        exact hrel₂
  | scope b ih =>
      intro q hna hso _ hinv _
      obtain ⟨hnd_b, hso_b⟩ := hso
      have hna_b : noAdd b = true := hna
      have hinv' : Inv q.createScope := by
        intro e he
        exact ⟨(hinv e he).1, fun x hx => Nat.le_succ_of_le ((hinv e he).2 x hx)⟩
      have hlt_b : ∀ e ∈ q.createScope.tbl, e.1 ∈ directPushes b →
          ∀ x ∈ e.2, x.1 < q.createScope.level := by
        intro e he _ x hx
        exact Nat.lt_succ_of_le ((hinv e he).2 x hx)
      obtain ⟨hlev_b, hrel_b⟩ := ih q.createScope hna_b hso_b hnd_b hinv' hlt_b
      have hclear : (runProg b q.createScope).clearScope.tbl = q.tbl := by
        show ((runProg b q.createScope).tbl.map
          (fun e => (e.1, ParamStack.popTopAtLevel (runProg b q.createScope).level e.2))) = q.tbl
        rw [hlev_b]
        show ((runProg b q.createScope).tbl.map
          (fun e => (e.1, ParamStack.popTopAtLevel (q.level + 1) e.2))) = q.tbl
        exact clear_restores hrel_b (fun e he x hx => (hinv e he).2 x hx)
      constructor
      · show (runProg b q.createScope).clearScope.level = q.level
        show (runProg b q.createScope).level - 1 = q.level
        rw [hlev_b]
        rfl
      · show List.Forall₂ _ q.tbl (runProg b q.createScope).clearScope.tbl
        rw [hclear]
        exact forall2_entryRel_refl _ _ _

/-- C9: parsing the schema text `"fld1:INT64"` returns an
`UnknownBuiltinType` error whose location is exactly the half-open byte
range `(5, 10)`, the span of the identifier `INT64` (matching the source's
own `parse_unknown_builtin_type` test). -/
theorem c9_unknown_builtin_location :
    parse (ascii "fld1:INT64") = .perr ⟨.unknownBuiltinType, ⟨5, 10⟩⟩ := rfl

/-- C1 (code bug): reading a `UINT32` from a 2-byte buffer does return the
typed truncation error (`read_number` checks the bound before slicing), but
`read_nstr` advances the cursor with no bounds check and then takes the
slice `&buf[start..pos]`, so reading a 4-byte `NSTR` from the same 2-byte
buffer is an out-of-range slice index — a Rust panic (`aborted`), not a
typed error as the claim states. -/
theorem c1_uint32_errs_but_nstr_aborts :
    walkRead (Ast.mk (ascii "x") .uint32) [171, 205] 0 = .err .general ∧
      walkRead (Ast.mk (ascii "s") (.nstr 4)) [171, 205] 0 = .aborted :=
  ⟨rfl, rfl⟩

/-- C10: for every node of statically known size (`Ast::size` returns
`Known n`) and every buffer and cursor position, `BufWalker::skip` returns
success and advances the cursor by exactly `n`, with no bounds check — even
past the end of the buffer. -/
theorem c10_skip_known_size_unchecked (node : Ast) (n : Nat) (buf : List Nat)
    (pos : Nat) (h : node.size = .known n) :
    skip node buf pos = .ok () (pos + n) := by
  unfold skip
  rw [h]

/-- Witness for C10 at a concrete input: skipping a 4-byte `NSTR` node over
a 2-byte buffer succeeds and leaves the cursor at 4, past the end. -/
theorem c10_skip_known_size_unchecked_witness :
    (Ast.mk (ascii "s") (.nstr 4)).size = .known 4 ∧
      skip (Ast.mk (ascii "s") (.nstr 4)) [1, 2] 0 = .ok () 4 :=
  ⟨rfl, c10_skip_known_size_unchecked (Ast.mk (ascii "s") (.nstr 4)) 4 [1, 2] 0 rfl⟩

/-- C8 (code bug): on the input `"\né"` (bytes `0A C3 A9`), the escape path
of `json_escape_str` is entered at the `\n`, after which each non-ASCII
byte is pushed with `escaped_string.push(*byte as char)` — re-encoding it as
the two-byte UTF-8 sequence of the code point U+00C3 / U+00A9 — so the
bytes of the multi-byte character `é` are *not* passed through unchanged:
the output is `5C 6E C3 83 C2 A9`, not `5C 6E C3 A9`. -/
theorem c8_escape_mangles_non_ascii :
    jsonEscapeStr [10, 195, 169] = [92, 110, 195, 131, 194, 169] ∧
      jsonEscapeStr [10, 195, 169] ≠ [92, 110, 195, 169] :=
  ⟨rfl, by decide⟩

/-- C2 (parser `+` support modelled from the spec): parsing `"a:+[x:UINT8]"`
succeeds with an unlimited array, and JSON-serializing it over the 3-byte
buffer `[1, 2, 3]` decodes elements until the buffer is exhausted, producing
exactly `{"a":[{"x":1},{"x":2},{"x":3}]}`. -/
theorem c2_unlimited_array_json :
    ∃ s, parse (ascii "a:+[x:UINT8]") = .ok s ∧
      s.ast = Ast.mk (ascii "")
        (.struct [Ast.mk (ascii "a")
          (.array .unlimited
            (Ast.mk (ascii "[]") (.struct [Ast.mk (ascii "x") .uint8])))]) ∧
      ∃ st, jsonDisplay 100 s [1, 2, 3] .minimal = .ok st ∧
        st.out = ascii "\x7b\"a\":[\x7b\"x\":1\x7d,\x7b\"x\":2\x7d,\x7b\"x\":3\x7d]\x7d" :=
  ⟨_, rfl, rfl, _, rfl, rfl⟩

/-- C6: parsing `"n:UINT8,a:{n}[x:UINT8]"` registers `n` as a parameter;
JSON-serializing over `[3, 1, 2, 3]` pushes the decoded value of `n` before
the sibling array `a` is decoded, and `a` gets exactly that many elements:
the output is `{"n":3,"a":[{"x":1},{"x":2},{"x":3}]}`. -/
theorem c6_parameter_resolution_json :
    ∃ s, parse (ascii "n:UINT8,a:\x7bn\x7d[x:UINT8]") = .ok s ∧
      (s.params.contains (ascii "n") = true) ∧
      ∃ st, jsonDisplay 100 s [3, 1, 2, 3] .minimal = .ok st ∧
        st.out = ascii "\x7b\"n\":3,\"a\":[\x7b\"x\":1\x7d,\x7b\"x\":2\x7d,\x7b\"x\":3\x7d]\x7d" :=
  ⟨_, rfl, rfl, _, rfl, rfl⟩

/-- The C7 container bytes: `"WN\ndata_size=4\nformat=x:{4}UINT8\n"`, the
separator `04 1A`, then four body bytes (written as numerals so that the
term normalizes cheaply). -/
def c7container (b1 b2 b3 b4 : Nat) : List Nat :=
  [87, 78, 10, 100, 97, 116, 97, 95, 115, 105, 122, 101, 61, 52, 10,
   102, 111, 114, 109, 97, 116, 61, 120, 58, 123, 52, 125, 85, 73, 78, 84, 56, 10,
   4, 26, b1, b2, b3, b4]

/-- The schema that `parse "x:\x7b4\x7dUINT8"` produces. -/
def c7schema : Schema :=
  ⟨Ast.mk (ascii "")
    (.struct [Ast.mk (ascii "x") (.array (.fixed 4) (Ast.mk (ascii "[]") .uint8))]),
   .new⟩

set_option maxHeartbeats 1000000 in
/-- C7: reading the container bytes
`"WN\ndata_size=4\nformat=x:{4}UINT8\n 04 1A"` followed by any 4 body bytes,
with body reading enabled, succeeds; the returned schema is exactly the
result of `parse("x:{4}UINT8")` and the body bytes come back unchanged. -/
theorem c7_container_round_trip (decomp : Decomp) (b1 b2 b3 b4 : Nat) :
    parse (ascii "x:\x7b4\x7dUINT8") = .ok c7schema ∧
      dataReaderRead .enableReadingBody decomp (c7container b1 b2 b3 b4) =
      .ok (c7schema,
        [(ascii "data_size", ascii "4"), (ascii "format", ascii "x:\x7b4\x7dUINT8")],
        [b1, b2, b3, b4]) := by
  refine ⟨rfl, ?_⟩
  have h1 : findMagicGo ((c7container b1 b2 b3 b4).length + 1)
      ⟨c7container b1 b2 b3 b4, 0⟩ [] = .ok ⟨c7container b1 b2 b3 b4, 3⟩ := rfl
  have h2 : headerFieldsGo ((c7container b1 b2 b3 b4).length + 1)
      ⟨c7container b1 b2 b3 b4, 3⟩ [] =
      .ok ([(ascii "data_size", ascii "4"), (ascii "format", ascii "x:\x7b4\x7dUINT8")],
        ⟨c7container b1 b2 b3 b4, 35⟩) := rfl
  simp only [dataReaderRead, h1, h2]
  exact rfl

/-- The C4 counterexample container bytes: `"WN\ndata_size=3\nformat=x:UINT8\n"`,
the separator `04 1A`, then four body bytes `[0, 1, 2, 3]` — one more byte
than the declared `data_size` of 3. -/
def c4container : List Nat :=
  [87, 78, 10, 100, 97, 116, 97, 95, 115, 105, 122, 101, 61, 51, 10,
   102, 111, 114, 109, 97, 116, 61, 120, 58, 85, 73, 78, 84, 56, 10,
   4, 26, 0, 1, 2, 3]

set_option maxHeartbeats 1000000 in
/-- C4 counterexample: a container declaring `data_size=3` over 4 available
body bytes (body reading enabled, ignore-data-size not set) does *not* fail:
`read` silently truncates the body to the declared 3 bytes and succeeds, so
the claim's "fails ... in either direction" is false in the
more-bytes-than-declared direction. -/
theorem c4_excess_bytes_truncate_not_error :
    dataReaderRead .enableReadingBody (fun _ _ => none) c4container =
    .ok (⟨Ast.mk (ascii "") (.struct [Ast.mk (ascii "x") .uint8]), .new⟩,
      [(ascii "data_size", ascii "3"), (ascii "format", ascii "x:UINT8")],
      [0, 1, 2]) := by
  have h1 : findMagicGo (c4container.length + 1) ⟨c4container, 0⟩ [] =
      .ok ⟨c4container, 3⟩ := rfl
  have h2 : headerFieldsGo (c4container.length + 1) ⟨c4container, 3⟩ [] =
      .ok ([(ascii "data_size", ascii "3"), (ascii "format", ascii "x:UINT8")],
        ⟨c4container, 32⟩) := rfl
  simp only [dataReaderRead, h1, h2]
  exact rfl

/-- C4 as amended: for an uncompressed body, `read_body` fails with the
size-mismatch error exactly when ignore-data-size is not set and *fewer*
bytes are available than declared; with more (or equally many) available
bytes it succeeds with the body truncated to the declared size; with
ignore-data-size set it succeeds with all available bytes, the check and the
truncation both skipped. -/
theorem c4_body_size_check_semantics (options : DataReaderOptions)
    (decomp : Decomp) (s : Stream) (bodySize : Nat) :
    readBody options decomp s bodySize none =
      if options.contains .ignoreDataSizeField then .ok (s.data.drop s.pos)
      else if (s.data.drop s.pos).length < bodySize then
        .error (.bodyShortRead (s.data.drop s.pos).length bodySize)
      else .ok ((s.data.drop s.pos).take bodySize) := by
  have hbind : ∀ X : Except Error (List Nat),
      (do let y ← X; pure y : Except Error (List Nat)) = X := by
    intro X; cases X <;> rfl
  by_cases h : options.contains .ignoreDataSizeField
  · simp [readBody, h, hbind]
    try rfl
  · by_cases h2 : (s.data.drop s.pos).length < bodySize
    · simp [readBody, h, h2, hbind]
      try rfl
    · simp [readBody, h, h2, hbind]
      try rfl

/-- C3 counterexample: with `p` registered, pushing two values for the same
name inside one `create_scope()`/`clear_scope()` bracket leaves the first
one visible after the bracket — `clear_scope` pops only the top entry per
name, so the value `1`, pushed *inside* the scope, is still returned by
`get_value`, refuting the claim's "any number of times". -/
theorem c3_double_push_survives_clear_scope :
    ((((ParamStack.new.addEntry
          (ascii "p")).createScope).pushValue (ascii "p") 1
        |>.pushValue (ascii "p") 2).clearScope).getValue (ascii "p") =
      some 1 :=
  rfl

/-- C3 as amended: a `create_scope()`/`clear_scope()` bracket around any
balanced decode-time operation sequence (no `add_entry`, each name pushed at
most once per scope instance, on a stack satisfying the reachable-state
invariant) restores the `ParamStack` exactly — level and all stacks — so no
value pushed inside the scope is still returned by `get_value`, and sibling
struct instances of an array never observe each other's pushed values. -/
theorem c3_scope_bracket_restores (p : ParamStack) (body : Prog)
    (hInv : Inv p) (hNoAdd : noAdd body = true) (hScopes : scopesOk body)
    (hOnce : (directPushes body).Nodup) :
    runProg (.scope body) p = p := by
  obtain ⟨hlev, hrel⟩ := runProg_rel (.scope body) p hNoAdd
    (show scopesOk (.scope body) from ⟨hOnce, hScopes⟩)
    (show (directPushes (.scope body)).Nodup from List.nodup_nil)
    hInv
    (fun e _ hm => absurd hm (List.not_mem_nil _))
  have htbl : (runProg (.scope body) p).tbl = p.tbl :=
    forall2_entryRel_nil_eq hrel
  cases hq : runProg (.scope body) p with
  | mk lvl tbl =>
      rw [hq] at hlev htbl
      simp only at hlev htbl
      rw [hlev, htbl]

/-- Witness for C3 as amended, at a concrete state and program: level 1 with
`n ↦ [(1, 7)]`, bracket body pushing `n` once directly and once inside a
nested bracket; the whole bracket is the identity. -/
theorem c3_scope_bracket_restores_witness :
    runProg (.scope (.seq (.pushV (ascii "n") 3) (.scope (.pushV (ascii "n") 5))))
      ⟨1, [(ascii "n", [(1, 7)])]⟩ = ⟨1, [(ascii "n", [(1, 7)])]⟩ :=
  c3_scope_bracket_restores ⟨1, [(ascii "n", [(1, 7)])]⟩
    (.seq (.pushV (ascii "n") 3) (.scope (.pushV (ascii "n") 5)))
    (by
      intro e he
      simp only [List.mem_singleton] at he
      subst he
      exact ⟨List.chain'_singleton _, by decide⟩)
    (by decide) (by decide) (by decide)

/-- The central round-trip invariant: every successful parser phase re-emits
exactly the bytes it consumed (through the oneline formatter), modulo a
trailing comma consumed at end of input. -/
theorem pStep_text (input : List Nat) :
    ∀ fuel : Nat,
      (∀ (ms : List Ast) (st : PState) (kind : AstKind) (st' : PState),
        pStep input fuel (.fieldList ms) st = .ok kind st' →
        FieldsConc input ms kind st st') ∧
      (∀ (st : PState) (kind : AstKind) (st' : PState),
        pStep input fuel .ptype st = .ok kind st' →
        TypeConc input kind st st') := by
  intro fuel
  induction fuel with
  | zero =>
      refine ⟨fun ms st kind st' h => ?_, fun st kind st' h => ?_⟩ <;> cases h
  | succ fuel ih =>
      obtain ⟨ihF, ihT⟩ := ih
      refine ⟨?_, ?_⟩
      · -- parse_field_list
        intro ms st kind st' h
        simp only [pStep] at h
        cases hlx : lexNext input st.pos with
        | none =>
            rw [hlx] at h
            simp only at h
            by_cases hms : ms.isEmpty
            · rw [if_pos hms] at h; cases h
            · rw [if_neg hms] at h
              simp only [POut.ok.injEq] at h
              obtain ⟨rfl, rfl⟩ := h
              refine ⟨le_refl _, Or.inr rfl, Or.inl hlx, [], [], by simp,
                fun _ => ⟨rfl, hlx⟩, ?_, Or.inl (extract_self input st.pos)⟩
              intro F hF
              obtain ⟨G, rfl⟩ : ∃ G, F = G + 1 := ⟨F - 1, by omega⟩
              rfl
        | some r =>
          cases r with
          | error e => rw [hlx] at h; simp only at h; cases h
          | ok tok =>
            rw [hlx] at h
            simp only at h
            cases htk : tok.kind with
            | ident name₀ =>
              rw [htk] at h
              simp only at h
              cases hnt₂ : nextToken input
                  { st with pos := tok.pos, loc := updLoc st.loc tok } with
              | error e => rw [hnt₂] at h; cases h
              | ok pr₂ =>
              obtain ⟨t₂, st₂⟩ := pr₂
              rw [hnt₂] at h
              simp only at h
              by_cases hcol : t₂.kind = .colon
              case neg => rw [if_pos hcol] at h; cases h
              rw [if_neg (not_not_intro hcol)] at h
              cases hty : pStep input fuel .ptype st₂ with
              | perr e => rw [hty] at h; cases h
              | aborted => rw [hty] at h; cases h
              | fuelOut => rw [hty] at h; cases h
              | ok kT st₃ =>
                rw [hty] at h
                simp only at h
                obtain ⟨hlt₀, hle₀, htxt₀, hid₀⟩ := lexNext_ok_facts hlx
                rw [htk] at htxt₀
                simp only [tokenText] at htxt₀
                have hname₀ : name₀ ≠ [] := by
                  obtain ⟨b₀, r₀, hb₀, _⟩ := hid₀ name₀ htk
                  rw [hb₀]; simp
                obtain ⟨hlx₂, hst₂⟩ := nextToken_ok_inv hnt₂
                have hqq : ({ st with pos := tok.pos, loc := updLoc st.loc tok }
                    : PState).pos = tok.pos := rfl
                rw [hqq] at hlx₂
                obtain ⟨hlt₂, hle₂, htxt₂, _⟩ := lexNext_ok_facts hlx₂
                rw [hcol] at htxt₂
                simp only [tokenText] at htxt₂
                have hpos₂ : st₂.pos = t₂.pos := by rw [hst₂]
                obtain ⟨hltT, hleT, hfmtT⟩ := ihT st₂ kT st₃ hty
                have e₀ : extract input st.pos tok.pos = name₀ := htxt₀
                have e₁ : extract input tok.pos st₂.pos = [58] := by
                  rw [hpos₂]; exact htxt₂
                have hfieldTxt : extract input st.pos st₃.pos =
                    name₀ ++ ([58] ++ extract input st₂.pos st₃.pos) := by
                  rw [← @extract_append input st.pos tok.pos st₃.pos (by omega) (by omega),
                      ← @extract_append input tok.pos st₂.pos st₃.pos (by omega) (by omega),
                      e₀, e₁]
                have hfield : ∀ F, st₃.pos - st₂.pos < F →
                    fmtGo F (.one (Ast.mk name₀ kT)) =
                      some (extract input st.pos st₃.pos) := by
                  intro F hF
                  rw [hfmtT name₀ F hname₀ hF, hfieldTxt,
                    writeName_of_letter_head (hid₀ name₀ htk)]
                  simp [List.append_assoc]
                cases hlx₃ : lexNext input st₃.pos with
                | none =>
                    rw [hlx₃] at h
                    simp only [POut.ok.injEq] at h
                    obtain ⟨rfl, rfl⟩ := h
                    refine ⟨by omega, Or.inl (by omega), Or.inl hlx₃,
                      [Ast.mk name₀ kT], extract input st.pos st₃.pos, by simp,
                      fun hc => absurd hc (by simp), ?_, Or.inl rfl⟩
                    intro F hF
                    obtain ⟨G, rfl⟩ : ∃ G, F = G + 1 := ⟨F - 1, by omega⟩
                    show fmtGo (G + 1) (.fields [Ast.mk name₀ kT]) = _
                    simp only [fmtGo]
                    exact hfield G (by omega)
                | some r₃ =>
                  cases r₃ with
                  | error e₃ =>
                      rw [hlx₃] at h
                      simp only at h
                      have hnt₃ : nextToken input st₃ = .error e₃ := by
                        unfold nextToken; rw [hlx₃]
                      rw [hnt₃] at h
                      simp only at h
                      cases h
                  | ok t₃ =>
                    obtain ⟨k₃, p₃⟩ := t₃
                    cases k₃ with
                    | rbracket =>
                        rw [hlx₃] at h
                        simp only [POut.ok.injEq] at h
                        obtain ⟨rfl, rfl⟩ := h
                        refine ⟨by omega, Or.inl (by omega),
                          Or.inr ⟨⟨.rbracket, p₃⟩, hlx₃, rfl⟩,
                          [Ast.mk name₀ kT], extract input st.pos st₃.pos, by simp,
                          fun hc => absurd hc (by simp), ?_, Or.inl rfl⟩
                        intro F hF
                        obtain ⟨G, rfl⟩ : ∃ G, F = G + 1 := ⟨F - 1, by omega⟩
                        show fmtGo (G + 1) (.fields [Ast.mk name₀ kT]) = _
                        simp only [fmtGo]
                        exact hfield G (by omega)
                    | comma =>
                        rw [hlx₃] at h
                        simp only at h
                        have hnt₃ : nextToken input st₃ = .ok (⟨.comma, p₃⟩, { st₃ with pos := p₃, loc := updLoc st₃.loc ⟨.comma, p₃⟩ }) := by
                          unfold nextToken; rw [hlx₃]
                        rw [hnt₃] at h
                        simp only at h
                        rw [if_neg (not_not_intro rfl)] at h
                        obtain ⟨hlt₄, hle₄, htxt₄, _⟩ := lexNext_ok_facts hlx₃
                        have hlt₄' : st₃.pos < p₃ := hlt₄
                        have hle₄' : p₃ ≤ input.length := hle₄
                        have e₄ : extract input st₃.pos p₃ = [44] := htxt₄
                        obtain ⟨hA₂, hB₂, hexit₂, new₂, t₂', hkind₂, hnil₂,
                          hfmt₂, hdisj₂⟩ :=
                          ihF (ms ++ [Ast.mk name₀ kT])
                            { st₃ with pos := p₃, loc := updLoc st₃.loc ⟨.comma, p₃⟩ }
                            kind st' h
                        have hA₂' : p₃ ≤ st'.pos := hA₂
                        have hstB : st'.pos ≤ input.length := by
                          rcases hB₂ with h' | h'
                          · exact h'
                          · rw [h']; exact hle₄'
                        have hkind' : kind = .struct (ms ++ (Ast.mk name₀ kT :: new₂)) := by
                          rw [hkind₂]; simp
                        have hfmt₂' : ∀ F, st'.pos - p₃ < F →
                            fmtGo F (.fields new₂) = some t₂' := hfmt₂
                        have hdisj₂' : extract input p₃ st'.pos = t₂' ∨
                            (extract input p₃ st'.pos = t₂' ++ [44] ∧
                              lexNext input st'.pos = none) := hdisj₂
                        have htot : extract input st.pos st'.pos =
                            extract input st.pos st₃.pos ++
                              ([44] ++ extract input p₃ st'.pos) := by
                          rw [← @extract_append input st.pos st₃.pos st'.pos (by omega) (by omega),
                              ← @extract_append input st₃.pos p₃ st'.pos (by omega) (by omega), e₄]
                        cases new₂ with
                        | nil =>
                            obtain ⟨hst'eq, hlxend⟩ := hnil₂ rfl
                            have hpos' : st'.pos = p₃ := by rw [hst'eq]
                            refine ⟨by omega, Or.inl hstB, Or.inl hlxend,
                              [Ast.mk name₀ kT], extract input st.pos st₃.pos, hkind',
                              fun hc => absurd hc (by simp), ?_, Or.inr ⟨?_, hlxend⟩⟩
                            · intro F hF
                              obtain ⟨G, rfl⟩ : ∃ G, F = G + 1 := ⟨F - 1, by omega⟩
                              show fmtGo (G + 1) (.fields [Ast.mk name₀ kT]) = _
                              simp only [fmtGo]
                              exact hfield G (by omega)
                            · have hnil' : extract input p₃ st'.pos = [] := by
                                rw [hpos']; exact extract_self input p₃
                              rw [htot, hnil']
                              simp
                        | cons c₂ rest₂ =>
                            refine ⟨by omega, Or.inl hstB, hexit₂,
                              Ast.mk name₀ kT :: c₂ :: rest₂,
                              extract input st.pos st₃.pos ++ [44] ++ t₂', hkind',
                              fun hc => absurd hc (by simp), ?_, ?_⟩
                            · intro F hF
                              obtain ⟨G, rfl⟩ : ∃ G, F = G + 1 := ⟨F - 1, by omega⟩
                              show fmtGo (G + 1)
                                  (.fields (Ast.mk name₀ kT :: c₂ :: rest₂)) = _
                              simp only [fmtGo, hfield G (by omega),
                                hfmt₂' G (by omega), Option.bind_eq_bind,
                                Option.some_bind]
                              simp [ascii]
                            · rcases hdisj₂' with hd | ⟨hd, hnone⟩
                              · refine Or.inl ?_
                                rw [htot, hd]
                                simp [List.append_assoc]
                              · refine Or.inr ⟨?_, hnone⟩
                                rw [htot, hd]
                                simp [List.append_assoc]
                    | ident s₃ =>
                        rw [hlx₃] at h
                        simp only at h
                        have hnt₃ : nextToken input st₃ = .ok (⟨.ident s₃, p₃⟩, { st₃ with pos := p₃, loc := updLoc st₃.loc ⟨.ident s₃, p₃⟩ }) := by
                          unfold nextToken; rw [hlx₃]
                        rw [hnt₃] at h
                        simp only at h
                        rw [if_pos (by simp)] at h
                        cases h
                    | number n₃ =>
                        rw [hlx₃] at h
                        simp only at h
                        have hnt₃ : nextToken input st₃ = .ok (⟨.number n₃, p₃⟩, { st₃ with pos := p₃, loc := updLoc st₃.loc ⟨.number n₃, p₃⟩ }) := by
                          unfold nextToken; rw [hlx₃]
                        rw [hnt₃] at h
                        simp only at h
                        rw [if_pos (by simp)] at h
                        cases h
                    | colon =>
                        rw [hlx₃] at h
                        simp only at h
                        have hnt₃ : nextToken input st₃ = .ok (⟨.colon, p₃⟩, { st₃ with pos := p₃, loc := updLoc st₃.loc ⟨.colon, p₃⟩ }) := by
                          unfold nextToken; rw [hlx₃]
                        rw [hnt₃] at h
                        simp only at h
                        rw [if_pos (by simp)] at h
                        cases h
                    | lbracket =>
                        rw [hlx₃] at h
                        simp only at h
                        have hnt₃ : nextToken input st₃ = .ok (⟨.lbracket, p₃⟩, { st₃ with pos := p₃, loc := updLoc st₃.loc ⟨.lbracket, p₃⟩ }) := by
                          unfold nextToken; rw [hlx₃]
                        rw [hnt₃] at h
                        simp only at h
                        rw [if_pos (by simp)] at h
                        cases h
                    | langle =>
                        rw [hlx₃] at h
                        simp only at h
                        have hnt₃ : nextToken input st₃ = .ok (⟨.langle, p₃⟩, { st₃ with pos := p₃, loc := updLoc st₃.loc ⟨.langle, p₃⟩ }) := by
                          unfold nextToken; rw [hlx₃]
                        rw [hnt₃] at h
                        simp only at h
                        rw [if_pos (by simp)] at h
                        cases h
                    | rangle =>
                        rw [hlx₃] at h
                        simp only at h
                        have hnt₃ : nextToken input st₃ = .ok (⟨.rangle, p₃⟩, { st₃ with pos := p₃, loc := updLoc st₃.loc ⟨.rangle, p₃⟩ }) := by
                          unfold nextToken; rw [hlx₃]
                        rw [hnt₃] at h
                        simp only at h
                        rw [if_pos (by simp)] at h
                        cases h
                    | lbrace =>
                        rw [hlx₃] at h
                        simp only at h
                        have hnt₃ : nextToken input st₃ = .ok (⟨.lbrace, p₃⟩, { st₃ with pos := p₃, loc := updLoc st₃.loc ⟨.lbrace, p₃⟩ }) := by
                          unfold nextToken; rw [hlx₃]
                        rw [hnt₃] at h
                        simp only at h
                        rw [if_pos (by simp)] at h
                        cases h
                    | rbrace =>
                        rw [hlx₃] at h
                        simp only at h
                        have hnt₃ : nextToken input st₃ = .ok (⟨.rbrace, p₃⟩, { st₃ with pos := p₃, loc := updLoc st₃.loc ⟨.rbrace, p₃⟩ }) := by
                          unfold nextToken; rw [hlx₃]
                        rw [hnt₃] at h
                        simp only at h
                        rw [if_pos (by simp)] at h
                        cases h
                    | plus =>
                        rw [hlx₃] at h
                        simp only at h
                        have hnt₃ : nextToken input st₃ = .ok (⟨.plus, p₃⟩, { st₃ with pos := p₃, loc := updLoc st₃.loc ⟨.plus, p₃⟩ }) := by
                          unfold nextToken; rw [hlx₃]
                        rw [hnt₃] at h
                        simp only at h
                        rw [if_pos (by simp)] at h
                        cases h
            | number n => rw [htk] at h; simp only at h; cases h
            | colon => rw [htk] at h; simp only at h; cases h
            | comma => rw [htk] at h; simp only at h; cases h
            | lbracket => rw [htk] at h; simp only at h; cases h
            | rbracket => rw [htk] at h; simp only at h; cases h
            | langle => rw [htk] at h; simp only at h; cases h
            | rangle => rw [htk] at h; simp only at h; cases h
            | lbrace => rw [htk] at h; simp only at h; cases h
            | rbrace => rw [htk] at h; simp only at h; cases h
            | plus => rw [htk] at h; simp only at h; cases h
      · -- parse_type
        intro st kind st' h
        simp only [pStep] at h
        cases hnt : nextToken input st with
        | error e => simp only [hnt] at h; cases h
        | ok pr =>
        obtain ⟨t, st₁⟩ := pr
        simp only [hnt] at h
        obtain ⟨hlx, hst₁⟩ := nextToken_ok_inv hnt
        obtain ⟨hlt₁, hle₁, htxt₁, hid₁⟩ := lexNext_ok_facts hlx
        have hpos₁ : st₁.pos = t.pos := by rw [hst₁]
        cases ht : t.kind with
        | ident s =>
            rw [ht] at h
            simp only at h
            cases hpb : parseBuiltinType st₁ s with
            | error e => rw [hpb] at h; cases h
            | ok k =>
                rw [hpb] at h
                simp only [POut.ok.injEq] at h
                obtain ⟨rfl, rfl⟩ := h
                rw [ht] at htxt₁
                simp only [tokenText] at htxt₁
                refine ⟨by omega, by omega, ?_⟩
                intro name F hname hF
                rw [hpos₁, htxt₁]
                exact fmtGo_builtin (by omega) (parseBuiltinType_text hpb)
        | lbracket =>
            rw [ht] at h
            simp only at h
            cases hfl : pStep input fuel (.fieldList []) st₁ with
            | perr e => rw [hfl] at h; cases h
            | aborted => rw [hfl] at h; cases h
            | fuelOut => rw [hfl] at h; cases h
            | ok kind₂ st₂ =>
                rw [hfl] at h
                simp only at h
                cases hcn : consumeNextToken input st₂ with
                | cerr e => rw [hcn] at h; cases h
                | caborted => rw [hcn] at h; cases h
                | ok st₃ =>
                    rw [hcn] at h
                    simp only [POut.ok.injEq] at h
                    obtain ⟨rfl, rfl⟩ := h
                    obtain ⟨hA, _, hexit, new, tt, hkind, _, hfmt, hdisj⟩ :=
                      ihF [] st₁ kind₂ st₂ hfl
                    obtain ⟨t₃, hlx₃, hst₃⟩ := consumeNextToken_ok_inv hcn
                    obtain ⟨hlt₃, hle₃, htxt₃, _⟩ := lexNext_ok_facts hlx₃
                    have hnocomma : extract input st₁.pos st₂.pos = tt := by
                      rcases hdisj with h' | ⟨_, hnone⟩
                      · exact h'
                      · rw [hnone] at hlx₃; cases hlx₃
                    have hrb : t₃.kind = .rbracket := by
                      rcases hexit with hnone | ⟨tr, hlr, hkr⟩
                      · rw [hnone] at hlx₃; cases hlx₃
                      · rw [hlr] at hlx₃
                        simp only [Option.some.injEq, Except.ok.injEq] at hlx₃
                        rw [← hlx₃]; exact hkr
                    have hpos₃ : st₃.pos = t₃.pos := by rw [hst₃]
                    rw [ht] at htxt₁
                    rw [hrb] at htxt₃
                    simp only [tokenText] at htxt₁ htxt₃
                    have hkindstruct : kind₂ = .struct new := by simpa using hkind
                    subst hkindstruct
                    refine ⟨by omega, by omega, ?_⟩
                    intro name F hname hF
                    obtain ⟨G, rfl⟩ : ∃ G, F = G + 1 := ⟨F - 1, by omega⟩
                    have hne : ¬ name.isEmpty := by
                      simpa [List.isEmpty_iff] using hname
                    have hfmt' : fmtGo G (.fields new) = some tt :=
                      hfmt G (by omega)
                    have htxt₁' : extract input st.pos st₁.pos = [91] := by
                      rw [hpos₁]; exact htxt₁
                    have htxt₃' : extract input st₂.pos st₃.pos = [93] := by
                      rw [hpos₃]; exact htxt₃
                    have hpc : extract input st₁.pos st₂.pos ++
                        extract input st₂.pos st₃.pos =
                        extract input st₁.pos st₃.pos :=
                      extract_append (by omega) (by omega)
                    have htot : extract input st.pos st₁.pos ++
                        extract input st₁.pos st₃.pos =
                        extract input st.pos st₃.pos :=
                      extract_append (by omega) (by omega)
                    rw [← htot, ← hpc, hnocomma, htxt₁', htxt₃']
                    show fmtGo (G + 1) (.one (Ast.mk name (.struct new))) = _
                    simp only [fmtGo, hne, Bool.false_eq_true, if_false, hfmt',
                      Option.bind_eq_bind, Option.some_bind]
                    simp [ascii, writeName]
        | number n => rw [ht] at h; simp only at h; cases h
        | colon => rw [ht] at h; simp only at h; cases h
        | comma => rw [ht] at h; simp only at h; cases h
        | rbracket => rw [ht] at h; simp only at h; cases h
        | rangle => rw [ht] at h; simp only at h; cases h
        | rbrace => rw [ht] at h; simp only at h; cases h
        | langle =>
            rw [ht] at h
            simp only at h
            cases hnt₂ : nextToken input st₁ with
            | error e => rw [hnt₂] at h; cases h
            | ok pr₂ =>
            obtain ⟨tn, st₂⟩ := pr₂
            rw [hnt₂] at h
            simp only at h
            cases htn : tn.kind with
            | number len =>
              rw [htn] at h
              simp only at h
              cases hnt₃ : nextToken input st₂ with
              | error e => rw [hnt₃] at h; cases h
              | ok pr₃ =>
              obtain ⟨tr, st₃⟩ := pr₃
              rw [hnt₃] at h
              simp only at h
              by_cases hra : tr.kind = .rangle
              case neg => rw [if_pos hra] at h; cases h
              rw [if_neg (not_not_intro hra)] at h
              cases hnt₄ : nextToken input st₃ with
              | error e => rw [hnt₄] at h; cases h
              | ok pr₄ =>
              obtain ⟨ti, st₄⟩ := pr₄
              rw [hnt₄] at h
              simp only at h
              cases hti : ti.kind with
              | ident s =>
                rw [hti] at h
                simp only at h
                by_cases hnstr : s = ascii "NSTR"
                case neg => rw [if_neg hnstr] at h; cases h
                rw [if_pos hnstr] at h
                simp only [POut.ok.injEq] at h
                obtain ⟨rfl, rfl⟩ := h
                obtain ⟨hlx₂, hst₂⟩ := nextToken_ok_inv hnt₂
                obtain ⟨hlt₂, hle₂, htxt₂, _⟩ := lexNext_ok_facts hlx₂
                obtain ⟨hlx₃, hst₃⟩ := nextToken_ok_inv hnt₃
                obtain ⟨hlt₃, hle₃, htxt₃, _⟩ := lexNext_ok_facts hlx₃
                obtain ⟨hlx₄, hst₄⟩ := nextToken_ok_inv hnt₄
                obtain ⟨hlt₄, hle₄, htxt₄, _⟩ := lexNext_ok_facts hlx₄
                have hpos₂ : st₂.pos = tn.pos := by rw [hst₂]
                have hpos₃ : st₃.pos = tr.pos := by rw [hst₃]
                have hpos₄ : st₄.pos = ti.pos := by rw [hst₄]
                rw [ht] at htxt₁
                rw [htn] at htxt₂
                rw [hra] at htxt₃
                rw [hti] at htxt₄
                simp only [tokenText] at htxt₁ htxt₂ htxt₃ htxt₄
                rw [hnstr] at htxt₄
                have e₁ : extract input st.pos st₁.pos = [60] := by
                  rw [hpos₁]; exact htxt₁
                have e₂ : extract input st₁.pos st₂.pos = natDec len := by
                  rw [hpos₂]; exact htxt₂
                have e₃ : extract input st₂.pos st₃.pos = [62] := by
                  rw [hpos₃]; exact htxt₃
                have e₄ : extract input st₃.pos st₄.pos = ascii "NSTR" := by
                  rw [hpos₄]; exact htxt₄
                refine ⟨by omega, by omega, ?_⟩
                intro name F hname hF
                have hb : fmtGo F (.one (Ast.mk name (.nstr len))) =
                    some (writeName name ++ (ascii "<" ++ natDec len ++ ascii ">NSTR")) :=
                  fmtGo_builtin (by omega) rfl
                rw [hb]
                have htot : extract input st.pos st₄.pos =
                    [60] ++ (natDec len ++ ([62] ++ ascii "NSTR")) := by
                  rw [← @extract_append input st.pos st₁.pos st₄.pos (by omega) (by omega),
                      ← @extract_append input st₁.pos st₂.pos st₄.pos (by omega) (by omega),
                      ← @extract_append input st₂.pos st₃.pos st₄.pos (by omega) (by omega),
                      e₁, e₂, e₃, e₄]
                rw [htot]
                simp [ascii]
              | number n => rw [hti] at h; simp only at h; cases h
              | colon => rw [hti] at h; simp only at h; cases h
              | comma => rw [hti] at h; simp only at h; cases h
              | lbracket => rw [hti] at h; simp only at h; cases h
              | rbracket => rw [hti] at h; simp only at h; cases h
              | langle => rw [hti] at h; simp only at h; cases h
              | rangle => rw [hti] at h; simp only at h; cases h
              | lbrace => rw [hti] at h; simp only at h; cases h
              | rbrace => rw [hti] at h; simp only at h; cases h
              | plus => rw [hti] at h; simp only at h; cases h
            | ident s => rw [htn] at h; simp only at h; cases h
            | colon => rw [htn] at h; simp only at h; cases h
            | comma => rw [htn] at h; simp only at h; cases h
            | lbracket => rw [htn] at h; simp only at h; cases h
            | rbracket => rw [htn] at h; simp only at h; cases h
            | langle => rw [htn] at h; simp only at h; cases h
            | rangle => rw [htn] at h; simp only at h; cases h
            | lbrace => rw [htn] at h; simp only at h; cases h
            | rbrace => rw [htn] at h; simp only at h; cases h
            | plus => rw [htn] at h; simp only at h; cases h
        | lbrace =>
            rw [ht] at h
            simp only at h
            cases hnt₂ : nextToken input st₁ with
            | error e => rw [hnt₂] at h; cases h
            | ok pr₂ =>
            obtain ⟨tl, st₂⟩ := pr₂
            rw [hnt₂] at h
            simp only at h
            cases htl : tl.kind with
            | number n =>
              rw [htl] at h
              simp only at h
              cases hnt₃ : nextToken input st₂ with
              | error e => rw [hnt₃] at h; cases h
              | ok pr₃ =>
              obtain ⟨tr, st₃⟩ := pr₃
              rw [hnt₃] at h
              simp only at h
              by_cases hrb : tr.kind = .rbrace
              case neg => rw [if_pos hrb] at h; cases h
              rw [if_neg (not_not_intro hrb)] at h
              cases hin : pStep input fuel .ptype st₃ with
              | perr e => rw [hin] at h; cases h
              | aborted => rw [hin] at h; cases h
              | fuelOut => rw [hin] at h; cases h
              | ok kE stE =>
                rw [hin] at h
                simp only [wrapArray, POut.ok.injEq] at h
                obtain ⟨rfl, rfl⟩ := h
                obtain ⟨hltE, hleE, hfmtE⟩ := ihT st₃ kE stE hin
                obtain ⟨hlx₂, hst₂⟩ := nextToken_ok_inv hnt₂
                obtain ⟨hlt₂, hle₂, htxt₂, _⟩ := lexNext_ok_facts hlx₂
                obtain ⟨hlx₃, hst₃⟩ := nextToken_ok_inv hnt₃
                obtain ⟨hlt₃, hle₃, htxt₃, _⟩ := lexNext_ok_facts hlx₃
                have hpos₂ : st₂.pos = tl.pos := by rw [hst₂]
                have hpos₃ : st₃.pos = tr.pos := by rw [hst₃]
                rw [ht] at htxt₁
                rw [htl] at htxt₂
                rw [hrb] at htxt₃
                simp only [tokenText] at htxt₁ htxt₂ htxt₃
                have e₁ : extract input st.pos st₁.pos = [123] := by
                  rw [hpos₁]; exact htxt₁
                have e₂ : extract input st₁.pos st₂.pos = natDec n := by
                  rw [hpos₂]; exact htxt₂
                have e₃ : extract input st₂.pos st₃.pos = [125] := by
                  rw [hpos₃]; exact htxt₃
                refine ⟨by omega, by omega, ?_⟩
                intro name F hname hF
                obtain ⟨G, rfl⟩ : ∃ G, F = G + 1 := ⟨F - 1, by omega⟩
                have hfE : fmtGo G (.one (Ast.mk (ascii "[]") kE)) =
                    some (writeName (ascii "[]") ++ extract input st₃.pos stE.pos) :=
                  hfmtE (ascii "[]") G (by simp [ascii]) (by omega)
                have htot : extract input st.pos stE.pos =
                    [123] ++ (natDec n ++ ([125] ++ extract input st₃.pos stE.pos)) := by
                  rw [← @extract_append input st.pos st₁.pos stE.pos (by omega) (by omega),
                      ← @extract_append input st₁.pos st₂.pos stE.pos (by omega) (by omega),
                      ← @extract_append input st₂.pos st₃.pos stE.pos (by omega) (by omega),
                      e₁, e₂, e₃]
                show fmtGo (G + 1)
                    (.one (Ast.mk name (.array (.fixed n) (Ast.mk (ascii "[]") kE)))) = _
                simp only [fmtGo, hfE, Option.bind_eq_bind, Option.some_bind]
                rw [htot]
                simp [ascii, writeName, lenText]
            | ident s =>
              rw [htl] at h
              simp only at h
              have hpp : ({ st₂ with params := st₂.params.addEntry s } : PState).pos
                  = st₂.pos := rfl
              cases hnt₃ : nextToken input { st₂ with params := st₂.params.addEntry s } with
              | error e => rw [hnt₃] at h; cases h
              | ok pr₃ =>
              obtain ⟨tr, st₃⟩ := pr₃
              rw [hnt₃] at h
              simp only at h
              by_cases hrb : tr.kind = .rbrace
              case neg => rw [if_pos hrb] at h; cases h
              rw [if_neg (not_not_intro hrb)] at h
              cases hin : pStep input fuel .ptype st₃ with
              | perr e => rw [hin] at h; cases h
              | aborted => rw [hin] at h; cases h
              | fuelOut => rw [hin] at h; cases h
              | ok kE stE =>
                rw [hin] at h
                simp only [wrapArray, POut.ok.injEq] at h
                obtain ⟨rfl, rfl⟩ := h
                obtain ⟨hltE, hleE, hfmtE⟩ := ihT st₃ kE stE hin
                obtain ⟨hlx₂, hst₂⟩ := nextToken_ok_inv hnt₂
                obtain ⟨hlt₂, hle₂, htxt₂, _⟩ := lexNext_ok_facts hlx₂
                obtain ⟨hlx₃, hst₃⟩ := nextToken_ok_inv hnt₃
                rw [hpp] at hlx₃
                obtain ⟨hlt₃, hle₃, htxt₃, _⟩ := lexNext_ok_facts hlx₃
                have hpos₂ : st₂.pos = tl.pos := by rw [hst₂]
                have hpos₃ : st₃.pos = tr.pos := by rw [hst₃]
                rw [ht] at htxt₁
                rw [htl] at htxt₂
                rw [hrb] at htxt₃
                simp only [tokenText] at htxt₁ htxt₂ htxt₃
                have e₁ : extract input st.pos st₁.pos = [123] := by
                  rw [hpos₁]; exact htxt₁
                have e₂ : extract input st₁.pos st₂.pos = s := by
                  rw [hpos₂]; exact htxt₂
                have e₃ : extract input st₂.pos st₃.pos = [125] := by
                  rw [hpos₃]; exact htxt₃
                refine ⟨by omega, by omega, ?_⟩
                intro name F hname hF
                obtain ⟨G, rfl⟩ : ∃ G, F = G + 1 := ⟨F - 1, by omega⟩
                have hfE : fmtGo G (.one (Ast.mk (ascii "[]") kE)) =
                    some (writeName (ascii "[]") ++ extract input st₃.pos stE.pos) :=
                  hfmtE (ascii "[]") G (by simp [ascii]) (by omega)
                have htot : extract input st.pos stE.pos =
                    [123] ++ (s ++ ([125] ++ extract input st₃.pos stE.pos)) := by
                  rw [← @extract_append input st.pos st₁.pos stE.pos (by omega) (by omega),
                      ← @extract_append input st₁.pos st₂.pos stE.pos (by omega) (by omega),
                      ← @extract_append input st₂.pos st₃.pos stE.pos (by omega) (by omega),
                      e₁, e₂, e₃]
                show fmtGo (G + 1)
                    (.one (Ast.mk name (.array (.variab s) (Ast.mk (ascii "[]") kE)))) = _
                simp only [fmtGo, hfE, Option.bind_eq_bind, Option.some_bind]
                rw [htot]
                simp [ascii, writeName, lenText]
            | colon => rw [htl] at h; simp only at h; cases h
            | comma => rw [htl] at h; simp only at h; cases h
            | lbracket => rw [htl] at h; simp only at h; cases h
            | rbracket => rw [htl] at h; simp only at h; cases h
            | langle => rw [htl] at h; simp only at h; cases h
            | rangle => rw [htl] at h; simp only at h; cases h
            | lbrace => rw [htl] at h; simp only at h; cases h
            | rbrace => rw [htl] at h; simp only at h; cases h
            | plus => rw [htl] at h; simp only at h; cases h
        | plus =>
            rw [ht] at h
            simp only at h
            cases hin : pStep input fuel .ptype st₁ with
            | perr e => rw [hin] at h; cases h
            | aborted => rw [hin] at h; cases h
            | fuelOut => rw [hin] at h; cases h
            | ok kE stE =>
              rw [hin] at h
              simp only [wrapArray, POut.ok.injEq] at h
              obtain ⟨rfl, rfl⟩ := h
              obtain ⟨hltE, hleE, hfmtE⟩ := ihT st₁ kE stE hin
              rw [ht] at htxt₁
              simp only [tokenText] at htxt₁
              have e₁ : extract input st.pos st₁.pos = [43] := by
                rw [hpos₁]; exact htxt₁
              refine ⟨by omega, by omega, ?_⟩
              intro name F hname hF
              obtain ⟨G, rfl⟩ : ∃ G, F = G + 1 := ⟨F - 1, by omega⟩
              have hfE : fmtGo G (.one (Ast.mk (ascii "[]") kE)) =
                  some (writeName (ascii "[]") ++ extract input st₁.pos stE.pos) :=
                hfmtE (ascii "[]") G (by simp [ascii]) (by omega)
              have htot : extract input st.pos stE.pos =
                  [43] ++ extract input st₁.pos stE.pos := by
                rw [← @extract_append input st.pos st₁.pos stE.pos (by omega) (by omega), e₁]
              show fmtGo (G + 1)
                  (.one (Ast.mk name (.array .unlimited (Ast.mk (ascii "[]") kE)))) = _
              simp only [fmtGo, hfE, Option.bind_eq_bind, Option.some_bind]
              rw [htot]
              simp [ascii, writeName, lenText]


/-- The lexer returns `None` only at the end of the input. -/
theorem lexNext_none_le {input : List Nat} {pos : Nat}
    (h : lexNext input pos = none) : input.length ≤ pos := by
  unfold lexNext at h
  rcases hdrop : input.drop pos with _ | ⟨b, xs⟩
  · have hlen : input.length - pos = 0 := by
      rw [← List.length_drop, hdrop]; rfl
    omega
  · rw [hdrop] at h
    simp only [List.head?_cons] at h
    have step : ∀ (c : Prop) (inst : Decidable c)
        (x : Except SchemaParseError Token)
        (y : Option (Except SchemaParseError Token)),
        (if c then some x else y) = none → y = none := by
      intro c inst x y hh
      split at hh
      · cases hh
      · exact hh
    iterate 11 (replace h := step _ _ _ _ h)
    cases h

/-- C5: for every schema text accepted by the parser, the oneline formatter
applied to the parsed AST reproduces the input exactly, except that an
accepted trailing comma is not re-emitted: the formatter output is the input
or the input minus its trailing `,`. -/
theorem c5_oneline_round_trip (input : List Nat) (sch : Schema)
    (h : parse input = .ok sch) :
    ∃ out, oneline (input.length + 2) sch.ast = some out ∧
      (input = out ∨ input = out ++ [44]) := by
  unfold parse at h
  cases hp : pStep input (input.length + 1) (.fieldList []) ⟨0, ⟨0, 0⟩, .new⟩ with
  | perr e => rw [hp] at h; cases h
  | aborted => rw [hp] at h; cases h
  | fuelOut => rw [hp] at h; cases h
  | ok kind st =>
    rw [hp] at h
    simp only at h
    cases hlx : lexNext input st.pos with
    | some r =>
        cases r with
        | ok t => rw [hlx] at h; simp only at h; cases h
        | error e => rw [hlx] at h; simp only at h; cases h
    | none =>
        rw [hlx] at h
        simp only [POutS.ok.injEq] at h
        subst h
        obtain ⟨hA, hB, hexit, new, t, hkind, hnil, hfmt, hdisj⟩ :=
          (pStep_text input (input.length + 1)).1 [] ⟨0, ⟨0, 0⟩, .new⟩ kind st hp
        have hle : input.length ≤ st.pos := lexNext_none_le hlx
        have hfmt' : ∀ F, st.pos < F → fmtGo F (.fields new) = some t := hfmt
        have hdisj' : extract input 0 st.pos = t ∨
            (extract input 0 st.pos = t ++ [44] ∧
              lexNext input st.pos = none) := hdisj
        have hkind' : kind = .struct new := by rw [hkind]; simp
        have hlt : st.pos < input.length + 1 := by
          rcases hB with h' | h'
          · omega
          · have h0 : st.pos = 0 := by rw [h']
            omega
        refine ⟨t, ?_, ?_⟩
        · rw [hkind']
          show fmtGo (input.length + 2) (.one (Ast.mk (ascii "") (.struct new))) =
            some t
          have hred : fmtGo (input.length + 2)
              (.one (Ast.mk (ascii "") (.struct new))) =
              fmtGo (input.length + 1) (.fields new) := rfl
          rw [hred]
          exact hfmt' _ (by omega)
        · rcases hdisj' with hd | ⟨hd, _⟩
          · refine Or.inl ?_
            rw [← hd]
            exact (extract_all hle).symm
          · refine Or.inr ?_
            rw [← hd]
            exact (extract_all hle).symm

/-- Witness for C5 at the schema text `a:UINT8`. -/
theorem c5_oneline_round_trip_witness :
    ∃ out, oneline (([97, 58, 85, 73, 78, 84, 56] : List Nat).length + 2)
        (Schema.mk (Ast.mk (ascii "") (.struct [Ast.mk [97] .uint8]))
          ParamStack.new).ast = some out ∧
      (([97, 58, 85, 73, 78, 84, 56] : List Nat) = out ∨
        ([97, 58, 85, 73, 78, 84, 56] : List Nat) = out ++ [44]) :=
  c5_oneline_round_trip [97, 58, 85, 73, 78, 84, 56]
    (Schema.mk (Ast.mk (ascii "") (.struct [Ast.mk [97] .uint8]))
      ParamStack.new) rfl

end RRR
